import Mathlib

/-!
Shallow embedding of `pageload-summary/summarize.py` (the data-organization and
temporal-aggregation pipeline) and verification of its specification claims.

Modelling conventions:
* Python dictionaries are modelled as insertion-ordered association lists
  (`List (String × β)`); `dict.setdefault` appends a fresh key at the end,
  which matches Python's insertion-order semantics.
* Python floats are idealized as exact unnormalized fractions (`PyF`, a
  numerator/denominator pair of integers); the pipeline only parses, adds,
  multiplies and divides values, so exact fraction arithmetic is the standard
  idealization.  The value of a fraction is read off by `PyF.toQ` / real power
  by `GM.toReal` only at theorem boundaries.
* Fallible Python code (IndexError, TypeError from indexing with `None`,
  ValueError from `float`/`strptime`, AssertionError, ZeroDivisionError, the
  explicit `raise Exception`) is modelled with `Except PyErr`.
* String comparison is Python's: lexicographic on Unicode code points
  (`strLtB`), lists compare lexicographically element-wise (`lexLt`).
-/

namespace Pageload

/-- Lexicographic strict comparison of lists given a strict comparison on
elements; models Python's `<` on lists (and, over `Char`, on strings). -/
def lexLt {α : Type} (lt : α → α → Bool) : List α → List α → Bool
  | [], [] => false
  | [], _ :: _ => true
  | _ :: _, [] => false
  | a :: as, b :: bs => if lt a b then true else if lt b a then false else lexLt lt as bs

/-- Strict comparison of characters by Unicode code point, as in Python. -/
def charLtB (a b : Char) : Bool := a < b

/-- Python's strict `<` on strings: code-point lexicographic. -/
def strLtB (a b : String) : Bool := lexLt charLtB a.data b.data

/-- The (non-strict) sorting relation used to model Python's `sorted` on
strings: `a` may precede `b` iff `b < a` is false. -/
abbrev sLE (a b : String) : Prop := strLtB b a = false

instance : DecidableRel sLE := fun a b => instDecidableEqBool (strLtB b a) false

/-- The sorting relation for Python's `sorted` on lists of strings
(lexicographic list comparison). -/
abbrev bLE (a b : List String) : Prop := lexLt strLtB b a = false

instance : DecidableRel bLE := fun a b => instDecidableEqBool (lexLt strLtB b a) false

/-- Python's `sorted` on strings (ascending). -/
def sortedStrings (l : List String) : List String := List.insertionSort sLE l

/-- Substring test on character lists; models Python's `x in s` for strings. -/
def hasSub (pat : List Char) : List Char → Bool
  | [] => pat.isEmpty
  | c :: l => pat.isPrefixOf (c :: l) || hasSub pat l

/-- Helper of `pySplit`: splits a character list at whitespace runs,
accumulating the current (reversed) word. -/
def splitWSAux : List Char → List Char → List (List Char)
  | [], acc => if acc.isEmpty then [] else [acc.reverse]
  | c :: cs, acc =>
    if c.isWhitespace then
      if acc.isEmpty then splitWSAux cs [] else acc.reverse :: splitWSAux cs []
    else splitWSAux cs (c :: acc)

/-- Python's `str.split()` with no argument: splits on whitespace runs and
drops empty pieces. -/
def pySplit (s : String) : List String := (splitWSAux s.data []).map String.mk

/-- Python's `"-".join`. -/
def joinDash : List String → String
  | [] => ""
  | [x] => x
  | x :: xs => x ++ "-" ++ joinDash xs

/-- Helper of `removeAll`, structurally recursive on a fuel argument (the
fuel is the list length, which bounds the number of steps). -/
def removeAllAux (pat : List Char) : Nat → List Char → List Char
  | _, [] => []
  | 0, l => l
  | fuel + 1, c :: l =>
    if pat ≠ [] ∧ pat.isPrefixOf (c :: l) then
      removeAllAux pat fuel (List.drop (pat.length - 1) l)
    else
      c :: removeAllAux pat fuel l

/-- Removes every (leftmost, non-overlapping) occurrence of `pat`; models
Python's `s.replace(pat, "")`. -/
def removeAll (pat l : List Char) : List Char := removeAllAux pat l.length l

/-- Python's `s.replace(pat, "")` on strings. -/
def strDelAll (s pat : String) : String := String.mk (removeAll pat.data s.data)

/-- Value of a decimal digit character, `none` on non-digits. -/
def dval (c : Char) : Option Nat :=
  if c.isDigit then some (c.toNat - 48) else none

/-- Value of a two-digit-character block. -/
def dd (a b : Char) : Option Nat := do
  pure ((← dval a) * 10 + (← dval b))

/-- A parsed timestamp: the fields captured by the `%Y-%m-%d %H:%M` format
(seconds are absent from the format and hence zero). -/
structure DT where
  year : Nat
  month : Nat
  day : Nat
  hour : Nat
  minute : Nat
deriving DecidableEq, Repr

/-- Gregorian leap-year test, as in Python's `datetime`. -/
def isLeap (y : Nat) : Bool := (y % 4 == 0 && y % 100 != 0) || y % 400 == 0

/-- Length of month `m` in year `y`. -/
def daysInMonth (y m : Nat) : Nat :=
  if m = 2 then (if isLeap y then 29 else 28)
  else if m = 4 ∨ m = 6 ∨ m = 9 ∨ m = 11 then 30
  else 31

/-- Days in year `y` strictly before month `m`. -/
def daysBeforeMonth (y : Nat) : Nat → Nat
  | 0 => 0
  | 1 => 0
  | Nat.succ m => daysBeforeMonth y m + daysInMonth y m

/-- Proleptic Gregorian ordinal of a date (day 1 = 0001-01-01), as in
Python's `datetime.toordinal`. -/
def toOrdinal (t : DT) : Nat :=
  (t.year - 1) * 365 + (t.year - 1) / 4 - (t.year - 1) / 100 + (t.year - 1) / 400
    + daysBeforeMonth t.year t.month + t.day

/-- Absolute time of a parsed timestamp in minutes; datetime subtraction in
the source is exact, and both operands are whole minutes, so comparing
minute counts models the `timedelta` comparison exactly. -/
def toMin (t : DT) : Int :=
  ((toOrdinal t) * 1440 + t.hour * 60 + t.minute : Nat)

/-- Numeric key that orders `DT`s chronologically: lexicographic on
(year, month, day, hour, minute), packed into one natural number (all
fields below 100 after parsing, except the 4-digit year). -/
def DT.key (t : DT) : Nat :=
  (((t.year * 100 + t.month) * 100 + t.day) * 100 + t.hour) * 100 + t.minute

/-- Models `datetime.strptime(t, "%Y-%m-%d %H:%M")` on canonical zero-padded
input (the only shape the specification's timestamps take); any other string
is rejected.  Field validation (month and day-of-month ranges, hour, minute)
follows the `datetime` constructor. -/
def strptime (s : String) : Option DT :=
  match s.data with
  | [a1, a2, a3, a4, '-', b1, b2, '-', c1, c2, ' ', e1, e2, ':', f1, f2] => do
    let yhi ← dd a1 a2
    let ylo ← dd a3 a4
    let y := yhi * 100 + ylo
    let m ← dd b1 b2
    let d ← dd c1 c2
    let h ← dd e1 e2
    let mi ← dd f1 f2
    if 1 ≤ y ∧ 1 ≤ m ∧ m ≤ 12 ∧ 1 ≤ d ∧ d ≤ daysInMonth y m ∧ h ≤ 23 ∧ mi ≤ 59 then
      some ⟨y, m, d, h, mi⟩
    else
      none
  | _ => none

/-- Zero-padded two-digit rendering. -/
def pad2L (n : Nat) : List Char := [Nat.digitChar (n / 10), Nat.digitChar (n % 10)]

/-- Zero-padded four-digit rendering. -/
def pad4L (n : Nat) : List Char := pad2L (n / 100) ++ pad2L (n % 100)

/-- Models `dt.strftime("%Y-%m-%d %H:%M")`: zero-padded rendering of the
parsed fields. -/
def strftime (t : DT) : String :=
  String.mk (pad4L t.year ++ ('-' :: (pad2L t.month ++ ('-' :: (pad2L t.day
    ++ (' ' :: (pad2L t.hour ++ (':' :: pad2L t.minute))))))))

/-- A timestamp string is canonical when it parses and re-rendering gives the
string back (i.e. it is in zero-padded `YYYY-mm-dd HH:MM` form). -/
def canonicalB (s : String) : Bool :=
  match strptime s with
  | some t => strftime t == s
  | none => false

/-- Decidable equality for `Except` results, used to evaluate the model on
concrete inputs. -/
instance instDecEqExcept {ε α : Type} [DecidableEq ε] [DecidableEq α] :
    DecidableEq (Except ε α) := fun a b =>
  match a, b with
  | .error e, .error f => if h : e = f then isTrue (by simp [h]) else isFalse (by simp [h])
  | .error _, .ok _ => isFalse (by simp)
  | .ok _, .error _ => isFalse (by simp)
  | .ok x, .ok y => if h : x = y then isTrue (by simp [h]) else isFalse (by simp [h])

/-- Errors raised by the Python code: `TypeError` (indexing with a `None`
field index), `IndexError`, `ValueError` (`float`/`strptime` on bad input),
`AssertionError` (extra-options mismatch), `ZeroDivisionError` (`geo_mean`
of an empty collection), and the explicit `raise Exception` reporting the
set of platform values found in the data. -/
inductive PyErr where
  | typeErr
  | indexErr
  | valueErr
  | assertionErr
  | zeroDivision
  | config (platforms : Finset String)
deriving DecidableEq

/-- One step of the bucket walk in `temporal_aggregation`: state is the pair
(closed buckets, current open bucket).  A candidate joins the open bucket iff
the gap from the bucket's first (newest) member is strictly less than the
timespan; otherwise the open bucket is closed (re-rendered with `strftime`)
and a new one opens.  Mirrors the loop body at summarize.py lines 153-162. -/
def taStep (diff : Int) (st : List (List String) × List DT) (t : String) :
    Except PyErr (List (List String) × List DT) :=
  match strptime t with
  | none => .error .valueErr
  | some dt =>
    match st.2 with
    | [] => .ok (st.1, [dt])
    | c :: _ =>
      if toMin c - toMin dt < diff then .ok (st.1, st.2 ++ [dt])
      else .ok (st.1 ++ [st.2.map strftime], [dt])

/-- Model of `temporal_aggregation(times, timespan)` (summarize.py 142-164):
sort the timestamp strings, walk them newest-first with `taStep`, and return
the closed buckets reversed (oldest bucket first).  Note that, exactly as in
the source, the final open bucket `st.2` is discarded, never appended. -/
def temporal_aggregation (times : List String) (timespan : Int) :
    Except PyErr (List (List String)) := do
  let st ← ((sortedStrings times).reverse).foldlM (taStep (60 * timespan)) ([], [])
  pure st.1.reverse

/-- Python float values, idealized as exact unnormalized fractions
`num / den`.  The pipeline only parses, appends, sums, divides and multiplies
values, so this captures the numeric semantics exactly (a zero denominator
plays the role of numpy's NaN and is never produced on the pipeline's
reachable inputs). -/
structure PyF where
  num : Int
  den : Int
deriving DecidableEq, Repr

/-- Fraction addition. -/
def PyF.add (a b : PyF) : PyF := ⟨a.num * b.den + b.num * a.den, a.den * b.den⟩

/-- Fraction multiplication. -/
def PyF.mul (a b : PyF) : PyF := ⟨a.num * b.num, a.den * b.den⟩

/-- Fraction division. -/
def PyF.div (a b : PyF) : PyF := ⟨a.num * b.den, a.den * b.num⟩

/-- The rational value of a fraction (0 when the denominator is 0, a case
never reached on the pipeline's inputs). -/
def PyF.toQ (a : PyF) : ℚ := (a.num : ℚ) / (a.den : ℚ)

/-- Digits of a character list read as a natural number; `none` when empty or
containing a non-digit. -/
def digitsVal : List Char → Option Nat
  | [] => none
  | [c] => dval c
  | c :: l => do pure ((← dval c) * 10 ^ l.length + (← digitsVal l))

/-- Models Python's `float(s)` on plain decimal literals
(`[-]digits[.digits]`), the only shapes the pipeline's value column takes;
other strings (exponents, `inf`, surrounding spaces) are out of scope of the
claims and rejected. -/
def pyFloat (s : String) : Option PyF :=
  let core : List Char → Option PyF := fun cs =>
    match cs.span (fun c => c ≠ '.') with
    | (intPart, []) => do pure ⟨(← digitsVal intPart : Nat), 1⟩
    | (intPart, _ :: frac) => do
        let ip ← digitsVal intPart
        let fp ← digitsVal frac
        pure ⟨(ip : Int) * 10 ^ frac.length + fp, (10 : Int) ^ frac.length⟩
  match s.data with
  | '-' :: rest => do let f ← core rest; pure ⟨-f.num, f.den⟩
  | cs => core cs

/-- Arithmetic mean, modelling `np.mean` over a list of values. -/
def npMean (l : List PyF) : PyF :=
  (l.foldl PyF.add ⟨0, 1⟩).div ⟨(l.length : Int), 1⟩

/-- Result of `geo_mean`: the product of the inputs together with their
count; its numeric value is `prod ** (1 / count)` (see `GM.toReal`). -/
structure GM where
  prod : PyF
  count : Nat
deriving DecidableEq, Repr

/-- The real value of a `geo_mean` result. -/
noncomputable def GM.toReal (g : GM) : ℝ :=
  ((g.prod.num : ℝ) / (g.prod.den : ℝ)) ^ ((1 : ℝ) / (g.count : ℝ))

/-- Model of `geo_mean` (summarize.py 137-139): `a.prod() ** (1.0 / len(a))`.
The exponent `1.0 / len(a)` raises `ZeroDivisionError` when the collection is
empty; otherwise the product and count determine the value. -/
def geo_mean (l : List PyF) : Except PyErr GM :=
  if l.length = 0 then .error .zeroDivision
  else .ok ⟨l.foldl PyF.mul ⟨1, 1⟩, l.length⟩

/-- The seven field indices located in the CSV header by `organize_data`;
each is `none` when no header column contains the field name (Python's
`get_data_ind` returns `None` then). -/
structure Inds where
  platform : Option Nat
  test : Option Nat
  extra : Option Nat
  tag : Option Nat
  val : Option Nat
  time : Option Nat
  app : Option Nat
deriving DecidableEq, Repr

/-- Model of `get_data_ind(data, fieldname)` (summarize.py 45-50): index of
the first header column containing `fieldname` as a substring; `none` when
absent.  Reading `data[0]` of an empty list raises IndexError. -/
def get_data_ind (data : List (List String)) (fieldname : String) :
    Except PyErr (Option Nat) :=
  match data.head? with
  | none => .error .indexErr
  | some hdr => .ok (hdr.findIdx? (fun entry => hasSub fieldname.data entry.data))

/-- All seven index lookups performed at the top of `organize_data`. -/
def getInds (data : List (List String)) : Except PyErr Inds := do
  let platform ← get_data_ind data "platform"
  let test ← get_data_ind data "suite"
  let extra ← get_data_ind data "extra_options"
  let tag ← get_data_ind data "tags"
  let val ← get_data_ind data "value"
  let time ← get_data_ind data "push_timestamp"
  let app ← get_data_ind data "application"
  pure ⟨platform, test, extra, tag, val, time, app⟩

/-- `entry[i]` for an optional index: indexing with `None` raises TypeError,
an out-of-range index raises IndexError. -/
def idx (i : Option Nat) (entry : List String) : Except PyErr String :=
  match i with
  | none => .error .typeErr
  | some n =>
    match entry.get? n with
    | none => .error .indexErr
    | some s => .ok s

/-- The classification key of a surviving record: the path
platform → application → variant-label → page-load-type → composite-test-name
at which `organize_data` stores it. -/
structure Key where
  platform : String
  app : String
  variants : String
  pl : String
  name : String
deriving DecidableEq, Repr

/-- The per-test leaf of the Organized Data Tree: the normalized
extra-options set and the insertion-ordered mapping timestamp → values. -/
structure TestData where
  extra_options : Finset String
  values : List (String × List PyF)
deriving DecidableEq

/-- The Organized Data Tree: nested insertion-ordered mappings
platform → app → variant → pl_type → test-name → `TestData`. -/
abbrev Org :=
  List (String × List (String × List (String × List (String × List (String × TestData)))))

instance : DecidableEq (List (String × TestData)) := inferInstance

instance : DecidableEq (List (String × List (String × TestData))) := inferInstance

instance : DecidableEq (List (String × List (String × List (String × TestData)))) :=
  inferInstance

instance :
    DecidableEq (List (String × List (String × List (String × List (String × TestData))))) :=
  inferInstance

instance : DecidableEq Org := inferInstance

/-- First-match association-list lookup (Python dict read). -/
def aLookup {β : Type} (k : String) : List (String × β) → Option β
  | [] => none
  | (k', v) :: rest => if k' = k then some v else aLookup k rest

/-- Python's `d.setdefault(k, default)` followed by an update of the entry:
applies `f` to `some` of the stored value, or to `none` when the key is
fresh; a fresh key is appended at the end (insertion order). -/
def upsertO {β : Type} (k : String) (f : Option β → Except PyErr β) :
    List (String × β) → Except PyErr (List (String × β))
  | [] => do
    let v ← f none
    pure [(k, v)]
  | (k', v) :: rest =>
    if k' = k then do
      let v' ← f (some v)
      pure ((k', v') :: rest)
    else do
      let rest' ← upsertO k f rest
      pure ((k', v) :: rest')

/-- `values.setdefault(t, []).append(q)`: append one value at timestamp `t`,
creating the entry at the end when fresh. -/
def appendAt (t : String) (q : PyF) : List (String × List PyF) → List (String × List PyF)
  | [] => [(t, [q])]
  | (t', vs) :: rest =>
    if t' = t then (t', vs ++ [q]) :: rest else (t', vs) :: appendAt t q rest

/-- The innermost update of `organize_data` (summarize.py 117-125): on an
existing test the extra-options set is asserted equal; then the timestamp is
read, the value parsed with `float`, and appended. -/
def updateTest (inds : Inds) (entry : List String) (eo : Finset String)
    (o : Option TestData) : Except PyErr TestData :=
  match o with
  | none => do
    let t ← idx inds.time entry
    let vs ← idx inds.val entry
    match pyFloat vs with
    | none => .error .valueErr
    | some q => pure ⟨eo, appendAt t q []⟩
  | some td =>
    if td.extra_options = eo then do
      let t ← idx inds.time entry
      let vs ← idx inds.val entry
      match pyFloat vs with
      | none => .error .valueErr
      | some q => pure ⟨td.extra_options, appendAt t q td.values⟩
    else .error .assertionErr

/-- The variant label computed from the (pre-normalization) extra-options
tokens (summarize.py 74, 89-92, 101-102): start from `"e10s"`, append the
literal `"fission-"` and/or `"webrender"`, and strip the substring `"e10s"`
when anything was appended. -/
def variantsOf (extras : List String) : String :=
  let variants := if "fission" ∈ extras then "e10s" ++ "fission-" else "e10s"
  let variants := if "webrender" ∈ extras then variants ++ "webrender" else variants
  if variants ≠ "e10s" then strDelAll variants "e10s" else variants

/-- Extra-options normalization (summarize.py 94-99): drop one occurrence of
`"nocondprof"` when present, append `"visual"` when absent. -/
def normExtras (extras : List String) : List String :=
  let extras := if "nocondprof" ∈ extras then extras.erase "nocondprof" else extras
  if "visual" ∉ extras then extras ++ ["visual"] else extras

/-- The pure classification of one row from its extracted fields
(summarize.py 72-115, after the platform filter): the warm/cold filter, the
live filter, the page-load-type, the variant label, the extra-options
normalization, and the composite test name. -/
def classifyCore (platform test app extrasStr : String) :
    Option (Key × Finset String) :=
  let extras := pySplit extrasStr
  if "warm" ∉ extras ∧ "cold" ∉ extras then none
  else if "live" ∈ extras then none
  else
    let pl_type := if "warm" ∈ extras then "warm" else "cold"
    let variants := variantsOf extras
    let extras2 := normExtras extras
    let name := test ++ "-" ++ app ++ joinDash (List.insertionSort sLE extras2)
    some (⟨platform, app, variants, pl_type, name⟩, extras2.toFinset)

/-- The filtering and classification part of the loop body of
`organize_data` (summarize.py 66-115): returns `none` for rows skipped by
the platform filter, the warm/cold filter or the live filter, and otherwise
the classification key together with the normalized extra-options set.  The
tags column is read (and split) exactly as in the source, though never used
afterwards. -/
def classify (inds : Inds) (platforms : List String) (entry : List String) :
    Except PyErr (Option (Key × Finset String)) := do
  let platform ← idx inds.platform entry
  if platforms ≠ [] ∧ platform ∉ platforms then pure none
  else do
    let test ← idx inds.test entry
    let app ← idx inds.app entry
    let extrasStr ← idx inds.extra entry
    let _tags := pySplit (← idx inds.tag entry)
    pure (classifyCore platform test app extrasStr)

/-- Classification together with the timestamp and parsed value of the row;
used to state which leaf a surviving row's value lands in. -/
def classifyFull (inds : Inds) (platforms : List String) (entry : List String) :
    Except PyErr (Option (Key × Finset String × String × PyF)) := do
  match ← classify inds platforms entry with
  | none => pure none
  | some (k, eo) => do
    let t ← idx inds.time entry
    let vs ← idx inds.val entry
    match pyFloat vs with
    | none => .error .valueErr
    | some q => pure (some (k, eo, t, q))

/-- The full loop body of `organize_data` for one row: classify, then insert
along the nested `setdefault` chain (summarize.py 105-125). -/
def processEntry (inds : Inds) (platforms : List String) (org : Org)
    (entry : List String) : Except PyErr Org := do
  match ← classify inds platforms entry with
  | none => pure org
  | some (k, eo) =>
    upsertO k.platform (fun o1 =>
      upsertO k.app (fun o2 =>
        upsertO k.variants (fun o3 =>
          upsertO k.pl (fun o4 =>
            upsertO k.name (updateTest inds entry eo) (o4.getD []))
          (o3.getD []))
        (o2.getD []))
      (o1.getD [])) org

/-- Model of `organize_data(data, platforms)` (summarize.py 53-134): locate
the field indices, fold the loop body over the data rows, and on an empty
result raise the configuration exception reporting the set of values of the
platform column across ALL rows of the file — including the header row, as
in the source's `set([entry[platform_ind] for entry in data])`. -/
def organize_data (data : List (List String)) (platforms : List String) :
    Except PyErr Org := do
  let inds ← getInds data
  let org ← (data.drop 1).foldlM (processEntry inds platforms) []
  if org.isEmpty then do
    let ps ← data.mapM (fun entry => idx inds.platform entry)
    .error (.config ps.toFinset)
  else pure org

/-- The union (with multiplicity, before `set()` dedup) of the push
timestamps of all tests of a group (summarize.py 180-182). -/
def allPushTimes (tests : List (String × TestData)) : List String :=
  tests.foldl (fun acc p => acc ++ p.2.values.map Prod.fst) []

/-- `vals.setdefault(test, []).extend(xs)`: extend the accumulator list of a
test, creating it at the end when fresh. -/
def extendAt (k : String) (xs : List PyF) :
    List (String × List PyF) → List (String × List PyF)
  | [] => [(k, xs)]
  | (k', vs) :: rest =>
    if k' = k then (k', vs ++ xs) :: rest else (k', vs) :: extendAt k xs rest

/-- The per-bucket accumulation loop of the summarizer (summarize.py
189-194): for every timestamp of the bucket and every test holding values at
that timestamp, extend the per-test accumulator. -/
def accumulateVals (tests : List (String × TestData)) (times : List String) :
    List (String × List PyF) :=
  times.foldl (fun vals t =>
    tests.foldl (fun vals2 p =>
      match aLookup t p.2.values with
      | none => vals2
      | some xs => extendAt p.1 xs vals2) vals) []

/-- The summarization of one (platform, app, variant, pl_type) group
(summarize.py 179-197): aggregate the deduplicated push times into buckets,
sort the bucket list (Python's `sorted` on lists of strings), and for each
bucket take the per-test means and their `geo_mean`, emitting the pair
(last element of the bucket, summary value).  The iteration order of
Python's `set` is irrelevant because `temporal_aggregation` sorts its
input. -/
def summarize_group (tests : List (String × TestData)) (timespan : Int) :
    Except PyErr (List (String × GM)) := do
  let buckets ← temporal_aggregation (allPushTimes tests).dedup timespan
  (List.insertionSort bLE buckets).mapM (fun times => do
    let vals := accumulateVals tests times
    let means := vals.map (fun p => npMean p.2)
    match times.getLast? with
    | none => .error .indexErr
    | some tl => do
      let g ← geo_mean means
      pure (tl, g))

/-- The Summary Tree: nested mappings platform → app → variant → pl_type →
series of (timestamp, summary value) pairs.  The Python leaf is the
single-key dict `{"values": series}`; it is modelled by the series itself. -/
abbrev Summary :=
  List (String × List (String × List (String × List (String × List (String × GM)))))

instance : DecidableEq (List (String × GM)) := inferInstance

instance : DecidableEq (List (String × List (String × GM))) := inferInstance

instance : DecidableEq (List (String × List (String × List (String × GM)))) := inferInstance

instance :
    DecidableEq (List (String × List (String × List (String × List (String × GM))))) :=
  inferInstance

instance : DecidableEq Summary := inferInstance

/-- Model of `summarize(data, platforms, timespan)` (summarize.py 167-209):
organize the rows, then summarize every (platform, app, variant, pl_type)
group.  Each group key path is visited exactly once, so the source's
`setdefault` chain builds exactly this nested structure in iteration
order. -/
def summarize (data : List (List String)) (platforms : List String)
    (timespan : Int) : Except PyErr Summary := do
  let org ← organize_data data platforms
  org.mapM (fun p => do
    let apps ← p.2.mapM (fun a => do
      let variants ← a.2.mapM (fun v => do
        let pls ← v.2.mapM (fun pl => do
          let s ← summarize_group pl.2 timespan
          pure (pl.1, s))
        pure (v.1, pls))
      pure (a.1, variants))
    pure (p.1, apps))

/-- The leaf of the Organized Data Tree at classification key `k`, if
present. -/
def chainLookup (org : Org) (k : Key) : Option TestData :=
  (((((aLookup k.platform org).bind (aLookup k.app)).bind
    (aLookup k.variants)).bind (aLookup k.pl)).bind (aLookup k.name))

/-- The list of values stored in the Organized Data Tree at classification
key `k` and timestamp `t` (empty when the leaf is absent). -/
def valuesAt (org : Org) (k : Key) (t : String) : List PyF :=
  ((chainLookup org k).map (fun td => (aLookup t td.values).getD [])).getD []

/-- The values a single row contributes at key `k` and timestamp `t`:
its parsed value when the row survives the filters and classifies exactly
to `(k, t)`, nothing otherwise. -/
def contribOf (inds : Inds) (platforms : List String) (entry : List String)
    (k : Key) (t : String) : List PyF :=
  match classifyFull inds platforms entry with
  | .ok (some (k', _, t', q)) => if k' = k ∧ t' = t then [q] else []
  | _ => []

/-- All values the data rows contribute at key `k` and timestamp `t`, in row
order. -/
def contribs (inds : Inds) (platforms : List String) (data : List (List String))
    (k : Key) (t : String) : List PyF :=
  ((data.drop 1).map (fun e => contribOf inds platforms e k t)).flatten

/-- Boolean test that `s1` is chronologically at least as new as `s2` (both
must parse). -/
def chronoGEb (s1 s2 : String) : Bool :=
  match strptime s1, strptime s2 with
  | some d1, some d2 => DT.key d2 ≤ DT.key d1
  | _, _ => false

/-- `s1` is chronologically at least as new as `s2`. -/
abbrev chronoGE (s1 s2 : String) : Prop := chronoGEb s1 s2 = true

/-- `t` is chronologically the oldest member of the bucket `b`. -/
def oldestIn (t : String) (b : List String) : Prop :=
  b.all (fun s => chronoGEb s t) = true

/-- A CSV header row matching the telemetry query's column names. -/
def hdrC : List String :=
  ["platform", "suite", "extra_options", "tags", "value", "push_timestamp", "application"]

/-- A data row with fixed platform/suite/application, cold page-load type,
and the given value and push timestamp. -/
def rowC (v t : String) : List String :=
  ["linux", "suiteA", "cold", "", v, t, "firefox"]

/-- The end-to-end input of the specification's test vector: three rows with
identical platform/app/suite, values 2, 8 and 50 at timestamps
2024-01-01 00:00, 2024-01-01 12:00 and 2024-01-03 00:00. -/
def dataC2 : List (List String) :=
  [hdrC, rowC "2" "2024-01-01 00:00", rowC "8" "2024-01-01 12:00",
    rowC "50" "2024-01-03 00:00"]

/-- The field indices located for `hdrC`. -/
def indsC : Inds := ⟨some 0, some 1, some 2, some 3, some 4, some 5, some 6⟩

/-- A data row whose extra-options contain `fission`. -/
def rowFission : List String :=
  ["linux", "suiteA", "cold fission", "", "5", "2024-01-01 00:00", "firefox"]

/-- A one-row input whose only data row has platform `linux`. -/
def dataC8 : List (List String) := [hdrC, rowC "2" "2024-01-01 00:00"]

/-- The Organized Data Tree produced from `dataC2` with no platform
filter. -/
def orgC2 : Org :=
  [("linux", [("firefox", [("e10s", [("cold",
    [("suiteA-firefoxcold-visual",
      ⟨{"cold", "visual"},
       [("2024-01-01 00:00", [⟨2, 1⟩]), ("2024-01-01 12:00", [⟨8, 1⟩]),
        ("2024-01-03 00:00", [⟨50, 1⟩])]⟩)])])])])]

/-- A single-test group whose push times form one returned bucket of two
timestamps (2024-01-05 12:00 and 2024-01-05 00:00) plus a dropped final
bucket. -/
def testsC3 : List (String × TestData) :=
  [("suiteA-firefoxcold-visual",
    ⟨{"cold", "visual"},
     [("2024-01-01 00:00", [⟨1, 1⟩]), ("2024-01-05 00:00", [⟨2, 1⟩]),
      ("2024-01-05 12:00", [⟨3, 1⟩])]⟩)]

/-- C1.  The claim says the buckets partition the input set exactly (no
timestamp omitted).  The code never appends the final open bucket to the
result (summarize.py line 164 returns without flushing `curr`), so on the
singleton input `["2024-01-01 00:00"]` with timespan 24 the function returns
no buckets at all, omitting the timestamp: the union of the returned buckets
is empty, not the input.  This contradicts the function's own docstring
("the result will contain lists of all points that were grouped together"),
so the code, not the claim, is wrong. -/
theorem c1_final_bucket_dropped :
    temporal_aggregation ["2024-01-01 00:00"] 24 = .ok [] := by decide

/-- C4.  The claim says two timestamps 23 hours apart with timespan 24 end
in the same (returned) bucket and two timestamps 24 hours apart end in two
different (returned) buckets.  The gap comparison is indeed strict `<`, and
the walk groups the 23-hour pair into one open bucket and splits the 24-hour
pair into two; but the final open bucket is never flushed, so the returned
value is `[]` for the 23-hour pair (the shared bucket is dropped) and a
single bucket holding only the newer timestamp for the 24-hour pair. -/
theorem c4_boundary_buckets_dropped :
    temporal_aggregation ["2024-01-01 00:00", "2024-01-01 23:00"] 24 = .ok [] ∧
    temporal_aggregation ["2024-01-01 00:00", "2024-01-02 00:00"] 24 =
      .ok [["2024-01-02 00:00"]] := by decide

/-- C10.  `geo_mean` of an empty collection raises `ZeroDivisionError` (the
exponent `1.0 / len(a)` divides by zero before any value is produced); it
does not return NaN or a default. -/
theorem c10_geo_mean_empty_raises :
    geo_mean [] = .error .zeroDivision := by decide

/-- C2.  On the end-to-end input (three rows, values 2, 8, 50 at 2024-01-01
00:00, 2024-01-01 12:00 and 2024-01-03 00:00, timespan 24) the claim expects
the two buckets {00:00, 12:00} and {Jan-03} and the series
[("2024-01-01 12:00", 5.0), ("2024-01-03 00:00", 50.0)].  The code instead
drops the final open bucket (the two January-1 timestamps) and produces the
one-point series [("2024-01-03 00:00", 50.0)]: the summary value is the
geometric mean of the single per-test mean 50, whose real value is 50. -/
theorem c2_end_to_end_actual :
    summarize dataC2 [] 24 =
      .ok [("linux", [("firefox", [("e10s", [("cold",
        [("2024-01-03 00:00", ⟨⟨50, 1⟩, 1⟩)])])])])] ∧
    GM.toReal ⟨⟨50, 1⟩, 1⟩ = 50 := by
  constructor
  · decide
  · simp [GM.toReal]

/-- C5 (counterexample).  For a surviving record whose extra-options contain
`fission` (and not `webrender`) the claim says the variant label is exactly
`"fission"`.  The code appends the literal `"fission-"` (with a trailing
hyphen, summarize.py line 90), so after the `"e10s"` strip the label is
`"fission-"`, not `"fission"`. -/
theorem c5_trailing_hyphen_counterexample :
    classify indsC [] rowFission =
      .ok (some (⟨"linux", "firefox", "fission-", "cold",
        "suiteA-firefoxcold-fission-visual"⟩, {"cold", "fission", "visual"})) ∧
    ("fission-" : String) ≠ "fission" := by decide

/-- C5 (amended).  For every record that survives the filters, the variant
label is exactly `"e10s"` when neither `fission` nor `webrender` is in its
extra-options; otherwise the appended literals are `"fission-"` (with its
trailing hyphen) and `"webrender"` and the substring `"e10s"` is stripped,
yielding exactly `"fission-"` (fission only), `"webrender"` (webrender
only), or `"fission-webrender"` (both). -/
theorem c5_amended_variant_label (platform test app extrasStr : String)
    (k : Key) (eo : Finset String)
    (h : classifyCore platform test app extrasStr = some (k, eo)) :
    k.variants =
      if "fission" ∈ pySplit extrasStr then
        (if "webrender" ∈ pySplit extrasStr then "fission-webrender" else "fission-")
      else (if "webrender" ∈ pySplit extrasStr then "webrender" else "e10s") := by
  unfold classifyCore at h
  dsimp only [] at h
  split at h
  · exact absurd h (by simp)
  · split at h
    · exact absurd h (by simp)
    · rw [Option.some.injEq, Prod.mk.injEq] at h
      obtain ⟨hk, -⟩ := h
      subst hk
      show variantsOf (pySplit extrasStr) = _
      unfold variantsOf
      by_cases hf : "fission" ∈ pySplit extrasStr <;>
        by_cases hw : "webrender" ∈ pySplit extrasStr <;>
          simp only [hf, hw, if_true, if_false, if_pos, if_neg, not_false_iff] <;> decide

/-- C5 (witness for the amended theorem): a fission-only record classifies
with variant label `"fission-"`, as the amended claim's case table states. -/
theorem c5_amended_variant_label_witness :
    classifyCore "linux" "suiteA" "firefox" "cold fission" =
      some (⟨"linux", "firefox", "fission-", "cold",
        "suiteA-firefoxcold-fission-visual"⟩, {"cold", "fission", "visual"}) ∧
    Key.variants ⟨"linux", "firefox", "fission-", "cold",
        "suiteA-firefoxcold-fission-visual"⟩ =
      if "fission" ∈ pySplit "cold fission" then
        (if "webrender" ∈ pySplit "cold fission" then "fission-webrender" else "fission-")
      else (if "webrender" ∈ pySplit "cold fission" then "webrender" else "e10s") :=
  ⟨by decide,
   c5_amended_variant_label "linux" "suiteA" "firefox" "cold fission"
     ⟨"linux", "firefox", "fission-", "cold", "suiteA-firefoxcold-fission-visual"⟩
     {"cold", "fission", "visual"} (by decide)⟩

/-- C8 (counterexample).  On an input whose single data row has platform
`linux`, with an unmatched platform filter, the raised configuration error
reports the set {"platform", "linux"}: the comprehension
`set([entry[platform_ind] for entry in data])` (summarize.py line 128) runs
over ALL rows including the header, so the header cell `"platform"` is
included, and the reported set is not the set of platform values of the
data rows. -/
theorem c8_header_in_platforms_counterexample :
    organize_data dataC8 ["win"] = .error (.config {"platform", "linux"}) ∧
    ({"platform", "linux"} : Finset String) ≠ {"linux"} := by decide

/-- C8 (amended).  When, after all rows are processed, the Organized Data
Tree is empty, `organize_data` raises the configuration error reporting the
set of distinct values of the platform column across ALL rows of the CSV —
the comprehension runs over `data`, so the header row's platform cell is
part of the reported set. -/
theorem c8_amended_config_error (data : List (List String))
    (platforms : List String) (inds : Inds)
    (hinds : getInds data = .ok inds)
    (hfold : (data.drop 1).foldlM (processEntry inds platforms) ([] : Org) = .ok [])
    (ps : List String)
    (hps : data.mapM (fun entry => idx inds.platform entry) = .ok ps) :
    organize_data data platforms = .error (.config ps.toFinset) := by
  unfold organize_data
  rw [hinds]
  simp only [Except.bind, bind]
  rw [hfold]
  simp only [Except.bind, bind, List.isEmpty_nil, if_true]
  rw [hps]

/-- C8 (witness for the amended theorem): on `dataC8` with an unmatched
platform filter the reported set is that of the column values of all rows,
header included. -/
theorem c8_amended_config_error_witness :
    organize_data dataC8 ["win"] =
      .error (.config (["platform", "linux"].toFinset)) :=
  c8_amended_config_error dataC8 ["win"] indsC (by decide) (by decide)
    ["platform", "linux"] (by decide)

/-- C3 (counterexample).  The returned bucket
`["2024-01-05 12:00", "2024-01-05 00:00"]` is ordered newest-first, not
oldest-to-newest as claimed (the final reversal at summarize.py line 164
reverses only the outer bucket list), and the summarizer emits the pair
with timestamp `"2024-01-05 00:00"` — the bucket's last element, its
chronologically oldest member — although the strictly newer
`"2024-01-05 12:00"` is in the same bucket. -/
theorem c3_bucket_order_counterexample :
    temporal_aggregation
      ["2024-01-01 00:00", "2024-01-05 00:00", "2024-01-05 12:00"] 24 =
      .ok [["2024-01-05 12:00", "2024-01-05 00:00"]] ∧
    summarize_group testsC3 24 = .ok [("2024-01-05 00:00", ⟨⟨5, 2⟩, 1⟩)] ∧
    chronoGE "2024-01-05 12:00" "2024-01-05 00:00" ∧
    ("2024-01-05 12:00" : String) ≠ "2024-01-05 00:00" := by decide

/-- Lexicographic comparison is irreflexive when the element comparison
is. -/
theorem lexLt_irrefl {α : Type} (lt : α → α → Bool) (hirr : ∀ a, lt a a = false) :
    ∀ l, lexLt lt l l = false
  | [] => rfl
  | a :: as => by simp [lexLt, hirr a, lexLt_irrefl lt hirr as]

/-- Lexicographic comparison is transitive when the element comparison is
transitive and connected. -/
theorem lexLt_trans {α : Type} (lt : α → α → Bool)
    (htr : ∀ a b c, lt a b = true → lt b c = true → lt a c = true)
    (hconn : ∀ a b, lt a b = false → lt b a = false → a = b) :
    ∀ l1 l2 l3, lexLt lt l1 l2 = true → lexLt lt l2 l3 = true → lexLt lt l1 l3 = true := by
  intro l1
  induction l1 with
  | nil => intro l2 l3 h12 h23; cases l2 <;> cases l3 <;> simp_all [lexLt]
  | cons a as ih =>
    intro l2 l3 h12 h23
    cases l2 with
    | nil => simp [lexLt] at h12
    | cons b bs =>
      cases l3 with
      | nil => simp [lexLt] at h23
      | cons c cs =>
        simp only [lexLt] at h12 h23 ⊢
        cases hab : lt a b with
        | true =>
          cases hbc : lt b c with
          | true => simp [htr a b c hab hbc]
          | false =>
            cases hcb : lt c b with
            | true => simp [hbc, hcb] at h23
            | false =>
              have hbc2 : b = c := hconn b c hbc hcb
              subst hbc2
              simp [hab]
        | false =>
          cases hba : lt b a with
          | true => simp [hab, hba] at h12
          | false =>
            have hab2 : a = b := hconn a b hab hba
            subst hab2
            simp only [hab, Bool.false_eq_true, if_false] at h12
            cases hac : lt a c with
            | true => simp [hac]
            | false =>
              cases hca : lt c a with
              | true => simp [hac, hca] at h23
              | false =>
                have hac2 : a = c := hconn a c hac hca
                subst hac2
                simp only [hac, Bool.false_eq_true, if_false] at h23 ⊢
                exact ih bs cs h12 h23

/-- Two lists neither of which lexicographically precedes the other are
equal, when the element comparison is connected. -/
theorem lexLt_conn {α : Type} (lt : α → α → Bool)
    (hconn : ∀ a b, lt a b = false → lt b a = false → a = b) :
    ∀ l1 l2, lexLt lt l1 l2 = false → lexLt lt l2 l1 = false → l1 = l2 := by
  intro l1
  induction l1 with
  | nil =>
    intro l2 h12 h21
    cases l2 with
    | nil => rfl
    | cons b bs => simp [lexLt] at h12
  | cons a as ih =>
    intro l2 h12 h21
    cases l2 with
    | nil => simp [lexLt] at h21
    | cons b bs =>
      simp only [lexLt] at h12 h21
      cases hab : lt a b with
      | true => simp [hab] at h12
      | false =>
        cases hba : lt b a with
        | true => simp [hba] at h21
        | false =>
          have hab2 : a = b := hconn a b hab hba
          subst hab2
          simp only [hab, Bool.false_eq_true, if_false] at h12 h21
          rw [ih bs h12 h21]

/-- Lexicographic comparison is asymmetric. -/
theorem lexLt_asymm {α : Type} (lt : α → α → Bool)
    (hirr : ∀ a, lt a a = false)
    (htr : ∀ a b c, lt a b = true → lt b c = true → lt a c = true)
    (hconn : ∀ a b, lt a b = false → lt b a = false → a = b)
    (l1 l2 : List α) (h : lexLt lt l1 l2 = true) : lexLt lt l2 l1 = false := by
  cases h21 : lexLt lt l2 l1 with
  | false => rfl
  | true =>
    have := lexLt_trans lt htr hconn l1 l2 l1 h h21
    rw [lexLt_irrefl lt hirr l1] at this
    exact absurd this (by simp)

/-- Character comparison is irreflexive. -/
theorem charLtB_irrefl (a : Char) : charLtB a a = false := by simp [charLtB]

/-- Character comparison is transitive. -/
theorem charLtB_trans (a b c : Char) (h1 : charLtB a b = true) (h2 : charLtB b c = true) :
    charLtB a c = true := by
  simp only [charLtB, decide_eq_true_eq] at *
  exact lt_trans h1 h2

/-- Character comparison is connected. -/
theorem charLtB_conn (a b : Char) (h1 : charLtB a b = false) (h2 : charLtB b a = false) :
    a = b := by
  simp only [charLtB, decide_eq_false_iff_not, not_lt] at h1 h2
  exact le_antisymm h2 h1

/-- String comparison is irreflexive. -/
theorem strLtB_irrefl (a : String) : strLtB a a = false :=
  lexLt_irrefl charLtB charLtB_irrefl a.data

/-- String comparison is transitive. -/
theorem strLtB_trans (a b c : String) (h1 : strLtB a b = true) (h2 : strLtB b c = true) :
    strLtB a c = true :=
  lexLt_trans charLtB charLtB_trans charLtB_conn a.data b.data c.data h1 h2

/-- String comparison is connected. -/
theorem strLtB_conn (a b : String) (h1 : strLtB a b = false) (h2 : strLtB b a = false) :
    a = b :=
  String.ext (lexLt_conn charLtB charLtB_conn a.data b.data h1 h2)

/-- The string sorting relation is transitive. -/
theorem sLE_trans {a b c : String} (h1 : sLE a b) (h2 : sLE b c) : sLE a c := by
  cases hca : strLtB c a with
  | false => exact hca
  | true =>
    cases hab : strLtB a b with
    | true =>
      have := strLtB_trans c a b hca hab
      exact absurd h2 (by simp [this])
    | false =>
      have hab2 : a = b := strLtB_conn a b hab h1
      subst hab2
      exact absurd hca (by simp [h2])

/-- The string sorting relation is antisymmetric. -/
theorem sLE_antisymm {a b : String} (h1 : sLE a b) (h2 : sLE b a) : a = b :=
  (strLtB_conn b a h1 h2).symm

/-- The string sorting relation is total. -/
theorem sLE_total (a b : String) : sLE a b ∨ sLE b a := by
  cases hba : strLtB b a with
  | false => exact Or.inl hba
  | true =>
    exact Or.inr
      (lexLt_asymm charLtB charLtB_irrefl charLtB_trans charLtB_conn b.data a.data hba)

/-- The variant label depends only on token membership, so it is invariant
under permutation of the extra-options tokens. -/
theorem variantsOf_perm {l1 l2 : List String} (hp : l1.Perm l2) :
    variantsOf l1 = variantsOf l2 := by
  unfold variantsOf
  simp only [hp.mem_iff]

/-- Normalization maps permuted token lists to permuted token lists (erasing
one occurrence and conditionally appending `"visual"` both preserve the
permutation relation, and the conditions are membership tests). -/
theorem normExtras_perm {l1 l2 : List String} (hp : l1.Perm l2) :
    (normExtras l1).Perm (normExtras l2) := by
  unfold normExtras
  dsimp only []
  have he : (if ("nocondprof" : String) ∈ l1 then l1.erase "nocondprof" else l1).Perm
      (if ("nocondprof" : String) ∈ l2 then l2.erase "nocondprof" else l2) := by
    by_cases h : ("nocondprof" : String) ∈ l1
    · rw [if_pos h, if_pos (hp.mem_iff.mp h)]
      exact hp.erase _
    · rw [if_neg h, if_neg (fun c => h (hp.mem_iff.mpr c))]
      exact hp
  by_cases h2 : ("visual" : String) ∈
      (if ("nocondprof" : String) ∈ l1 then l1.erase "nocondprof" else l1)
  · rw [if_neg (not_not_intro h2), if_neg (not_not_intro (he.mem_iff.mp h2))]
    exact he
  · rw [if_pos h2, if_pos (fun c => h2 (he.mem_iff.mpr c))]
    exact he.append_right ["visual"]

/-- Permuting the extra-options tokens leaves the whole classification
unchanged: page-load type, variant label, sorted composite test name and
normalized extra-options set are all membership- or multiset-determined. -/
theorem classifyCore_perm (platform test app : String) {es1 es2 : String}
    (hp : (pySplit es1).Perm (pySplit es2)) :
    classifyCore platform test app es1 = classifyCore platform test app es2 := by
  haveI instT : IsTrans String sLE := ⟨fun _ _ _ => sLE_trans⟩
  haveI instA : IsAntisymm String sLE := ⟨fun _ _ => sLE_antisymm⟩
  haveI instTot : IsTotal String sLE := ⟨sLE_total⟩
  have hne := normExtras_perm hp
  have hso : List.insertionSort sLE (normExtras (pySplit es1)) =
      List.insertionSort sLE (normExtras (pySplit es2)) :=
    List.eq_of_perm_of_sorted
      (((List.perm_insertionSort sLE _).trans hne).trans
        (List.perm_insertionSort sLE _).symm)
      (List.sorted_insertionSort sLE _) (List.sorted_insertionSort sLE _)
  have hfs : (normExtras (pySplit es1)).toFinset = (normExtras (pySplit es2)).toFinset := by
    ext x
    simp [List.mem_toFinset, hne.mem_iff]
  unfold classifyCore
  dsimp only []
  simp only [hp.mem_iff, variantsOf_perm hp, hso, hfs]

/-- C7.  Permuting the order of the tokens in a row's extra-options field
leaves the organizing result unchanged: the classification (key, normalized
extra-options set, timestamp, value) and the full tree update are identical
for the reordered row, so reordered rows can never trip the extra-options
mismatch assertion.  `entry1.set n es2` is the row with its extra-options
cell replaced by a permuted token string; the index hypotheses say the other
consumed columns are distinct from the extra-options column. -/
theorem c7_extras_order_invariant (inds : Inds) (platforms : List String)
    (entry1 : List String) (n : Nat) (es1 es2 : String)
    (hext : inds.extra = some n)
    (h1 : entry1.get? n = some es1)
    (hn : n < entry1.length)
    (hperm : (pySplit es1).Perm (pySplit es2))
    (hpl : inds.platform ≠ some n) (hts : inds.test ≠ some n)
    (hap : inds.app ≠ some n) (hvl : inds.val ≠ some n) (htm : inds.time ≠ some n) :
    classifyFull inds platforms entry1 = classifyFull inds platforms (entry1.set n es2) ∧
    ∀ org : Org, processEntry inds platforms org entry1 =
      processEntry inds platforms org (entry1.set n es2) := by
  have hA : ∀ i, i ≠ some n → idx i (entry1.set n es2) = idx i entry1 := by
    intro i hi
    cases i with
    | none => rfl
    | some m =>
      have hm : n ≠ m := by
        intro e
        exact hi (by rw [e])
      unfold idx
      dsimp only []
      rw [List.get?_set_ne es2 entry1 hm]
  have hE1 : idx inds.extra entry1 = .ok es1 := by
    rw [hext]; unfold idx; dsimp only []; rw [h1]
  have hE2 : idx inds.extra (entry1.set n es2) = .ok es2 := by
    rw [hext]; unfold idx; dsimp only []; rw [List.get?_set_eq_of_lt es2 hn]
  have hC : classify inds platforms entry1 = classify inds platforms (entry1.set n es2) := by
    unfold classify
    rw [hA inds.platform hpl]
    cases hP : idx inds.platform entry1 with
    | error e => simp [Except.bind, bind]
    | ok p =>
      simp only [Except.bind, bind]
      by_cases hf : platforms ≠ [] ∧ p ∉ platforms
      · simp [hf]
      · simp only [if_neg hf]
        rw [hA inds.test hts]
        cases hT : idx inds.test entry1 with
        | error e => simp [Except.bind]
        | ok t =>
          simp only [Except.bind]
          rw [hA inds.app hap]
          cases hApp : idx inds.app entry1 with
          | error e => simp [Except.bind]
          | ok a =>
            simp only [Except.bind]
            rw [hE1, hE2]
            simp only [Except.bind]
            by_cases htg : inds.tag = some n
            · rw [htg]
              unfold idx
              dsimp only []
              rw [h1, List.get?_set_eq_of_lt es2 hn]
              simp only [Except.bind]
              rw [classifyCore_perm p t a hperm]
            · rw [hA inds.tag htg]
              cases hTg : idx inds.tag entry1 with
              | error e => simp [Except.bind]
              | ok tg =>
                simp only [Except.bind]
                rw [classifyCore_perm p t a hperm]
  have hUT : updateTest inds (entry1.set n es2) = updateTest inds entry1 := by
    funext eo o
    unfold updateTest
    rw [hA inds.time htm, hA inds.val hvl]
  constructor
  · unfold classifyFull
    rw [hC, hA inds.time htm, hA inds.val hvl]
  · intro org
    unfold processEntry
    rw [hC, hUT]

/-- C7 (witness): the rows with extra-options `"warm visual"` and
`"visual warm"` classify and insert identically. -/
theorem c7_extras_order_invariant_witness :
    classifyFull indsC [] ["linux", "suiteA", "warm visual", "", "2",
        "2024-01-01 00:00", "firefox"] =
      classifyFull indsC [] (["linux", "suiteA", "warm visual", "", "2",
        "2024-01-01 00:00", "firefox"].set 2 "visual warm") ∧
    processEntry indsC [] [] ["linux", "suiteA", "warm visual", "", "2",
        "2024-01-01 00:00", "firefox"] =
      processEntry indsC [] [] (["linux", "suiteA", "warm visual", "", "2",
        "2024-01-01 00:00", "firefox"].set 2 "visual warm") := by
  have h := c7_extras_order_invariant indsC []
    ["linux", "suiteA", "warm visual", "", "2", "2024-01-01 00:00", "firefox"]
    2 "warm visual" "visual warm" (by decide) (by decide) (by decide) (by decide)
    (by decide) (by decide) (by decide) (by decide) (by decide)
  exact ⟨h.1, h.2 []⟩

/-- Looking a key up in a defaulted optional list is binding the lookup. -/
theorem aLookup_getD {β : Type} (o : Option (List (String × β))) (key : String) :
    aLookup key (o.getD []) = o.bind (aLookup key) := by
  cases o <;> rfl

/-- Characterization of a successful `upsertO`: the update function ran on
the looked-up value, the key now stores its result, and every other key is
untouched. -/
theorem upsertO_ok {β : Type} (k : String) (f : Option β → Except PyErr β) :
    ∀ (l l' : List (String × β)), upsertO k f l = .ok l' →
    ∃ v', f (aLookup k l) = .ok v' ∧ aLookup k l' = some v' ∧
      ∀ k2, k2 ≠ k → aLookup k2 l' = aLookup k2 l := by
  intro l
  induction l with
  | nil =>
    intro l' h
    unfold upsertO at h
    cases hf : f none with
    | error e => rw [hf] at h; simp [Except.bind, bind] at h
    | ok v =>
      rw [hf] at h
      simp only [Except.bind, bind, pure, Except.pure, Except.ok.injEq] at h
      subst h
      refine ⟨v, ?_, ?_, ?_⟩
      · simpa [aLookup] using hf
      · simp [aLookup]
      · intro k2 hk2
        simp [aLookup, Ne.symm hk2]
  | cons hd rest ih =>
    intro l' h
    obtain ⟨k1, v1⟩ := hd
    unfold upsertO at h
    by_cases he : k1 = k
    · rw [if_pos he] at h
      subst he
      cases hf : f (some v1) with
      | error e => rw [hf] at h; simp [Except.bind, bind] at h
      | ok v' =>
        rw [hf] at h
        simp only [Except.bind, bind, pure, Except.pure, Except.ok.injEq] at h
        subst h
        refine ⟨v', ?_, ?_, ?_⟩
        · simpa [aLookup] using hf
        · simp [aLookup]
        · intro k2 hk2
          simp [aLookup, Ne.symm hk2]
    · rw [if_neg he] at h
      cases hr : upsertO k f rest with
      | error e => rw [hr] at h; simp [Except.bind, bind] at h
      | ok rest' =>
        rw [hr] at h
        simp only [Except.bind, bind, pure, Except.pure, Except.ok.injEq] at h
        subst h
        obtain ⟨v', hf, hl, hother⟩ := ih rest' hr
        refine ⟨v', ?_, ?_, ?_⟩
        · simpa [aLookup, he] using hf
        · simp [aLookup, he, hl]
        · intro k2 hk2
          by_cases h12 : k1 = k2
          · simp [aLookup, h12]
          · simp [aLookup, h12, hother k2 hk2]

/-- Lookup after `appendAt`: the value was appended at key `t` and every
other key is untouched. -/
theorem aLookup_appendAt (t : String) (q : PyF) :
    ∀ (vals : List (String × List PyF)) (t2 : String),
    aLookup t2 (appendAt t q vals) =
      if t2 = t then some ((aLookup t vals).getD [] ++ [q]) else aLookup t2 vals := by
  intro vals
  induction vals with
  | nil =>
    intro t2
    by_cases h : t2 = t
    · subst h
      simp [appendAt, aLookup]
    · simp [appendAt, aLookup, h, Ne.symm h]
  | cons hd rest ih =>
    intro t2
    obtain ⟨t1, vs⟩ := hd
    unfold appendAt
    by_cases h1 : t1 = t
    · subst h1
      by_cases h2 : t2 = t1
      · subst h2
        simp [aLookup]
      · simp [aLookup, h2, Ne.symm h2]
    · rw [if_neg h1]
      by_cases h2 : t2 = t
      · subst h2
        simp [aLookup, h1, ih t2]
      · rw [if_neg h2]
        by_cases h3 : t1 = t2
        · simp [aLookup, h3]
        · simp [aLookup, h3, h2, ih t2]

/-- Characterization of a successful innermost update: a timestamp and a
value were read and parsed, and the value was appended at that timestamp
(on top of the old values when the test existed). -/
theorem updateTest_ok (inds : Inds) (entry : List String) (eo : Finset String)
    (o : Option TestData) (td' : TestData) (h : updateTest inds entry eo o = .ok td') :
    ∃ t vs q, idx inds.time entry = .ok t ∧ idx inds.val entry = .ok vs ∧
      pyFloat vs = some q ∧
      td'.values = appendAt t q ((o.map TestData.values).getD []) := by
  cases o with
  | none =>
    unfold updateTest at h
    dsimp only [] at h
    cases ht : idx inds.time entry with
    | error e => rw [ht] at h; simp [Except.bind, bind] at h
    | ok t =>
      rw [ht] at h
      simp only [Except.bind, bind] at h
      cases hv : idx inds.val entry with
      | error e => rw [hv] at h; simp [Except.bind, bind] at h
      | ok vs =>
        rw [hv] at h
        simp only [Except.bind, bind] at h
        cases hq : pyFloat vs with
        | none => rw [hq] at h; simp at h
        | some q =>
          rw [hq] at h
          simp only [pure, Except.pure, Except.ok.injEq] at h
          subst h
          exact ⟨t, vs, q, rfl, rfl, hq, rfl⟩
  | some td =>
    unfold updateTest at h
    dsimp only [] at h
    by_cases ha : td.extra_options = eo
    · rw [if_pos ha] at h
      cases ht : idx inds.time entry with
      | error e => rw [ht] at h; simp [Except.bind, bind] at h
      | ok t =>
        rw [ht] at h
        simp only [Except.bind, bind] at h
        cases hv : idx inds.val entry with
        | error e => rw [hv] at h; simp [Except.bind, bind] at h
        | ok vs =>
          rw [hv] at h
          simp only [Except.bind, bind] at h
          cases hq : pyFloat vs with
          | none => rw [hq] at h; simp at h
          | some q =>
            rw [hq] at h
            simp only [pure, Except.pure, Except.ok.injEq] at h
            subst h
            exact ⟨t, vs, q, rfl, rfl, hq, rfl⟩
    · rw [if_neg ha] at h
      exact absurd h (by simp)

/-- A successful classification plus successful timestamp/value extraction
determine `classifyFull`. -/
theorem classifyFull_some (inds : Inds) (platforms : List String) (entry : List String)
    (k : Key) (eo : Finset String) (t vs : String) (q : PyF)
    (hc : classify inds platforms entry = .ok (some (k, eo)))
    (ht : idx inds.time entry = .ok t) (hv : idx inds.val entry = .ok vs)
    (hq : pyFloat vs = some q) :
    classifyFull inds platforms entry = .ok (some (k, eo, t, q)) := by
  unfold classifyFull
  rw [hc]
  simp only [Except.bind, bind]
  rw [ht]
  simp only [Except.bind]
  rw [hv]
  simp only [Except.bind]
  rw [hq]
  rfl

/-- A filtered-out row has `classifyFull` equal to `ok none`. -/
theorem classifyFull_none (inds : Inds) (platforms : List String) (entry : List String)
    (hc : classify inds platforms entry = .ok none) :
    classifyFull inds platforms entry = .ok none := by
  unfold classifyFull
  rw [hc]
  rfl

/-- Reading a timestamp through an optional leaf's value map. -/
theorem map_values_lookup (Y : Option TestData) (t : String) :
    (aLookup t (((Y.map TestData.values).getD []))).getD [] =
      ((Y.map (fun td => (aLookup t td.values).getD [])).getD []) := by
  cases Y <;> simp [aLookup]

/-- One loop iteration of `organize_data`, when it succeeds, classifies the
row without error and appends the row's parsed value to exactly the leaf at
the row's classification key and timestamp, leaving every other leaf and
timestamp untouched. -/
theorem processEntry_ok (inds : Inds) (platforms : List String) (org : Org)
    (entry : List String) (org' : Org)
    (h : processEntry inds platforms org entry = .ok org') :
    (∃ r, classifyFull inds platforms entry = .ok r) ∧
    ∀ k t, valuesAt org' k t = valuesAt org k t ++ contribOf inds platforms entry k t := by
  unfold processEntry at h
  cases hc : classify inds platforms entry with
  | error e => rw [hc] at h; simp [Except.bind, bind] at h
  | ok o =>
    rw [hc] at h
    simp only [Except.bind, bind] at h
    cases o with
    | none =>
      simp only [pure, Except.pure, Except.ok.injEq] at h
      subst h
      refine ⟨⟨none, classifyFull_none inds platforms entry hc⟩, ?_⟩
      intro k t
      have hco : contribOf inds platforms entry k t = [] := by
        unfold contribOf
        rw [classifyFull_none inds platforms entry hc]
      rw [hco, List.append_nil]
    | some ke =>
      obtain ⟨k0, eo⟩ := ke
      obtain ⟨v1, hf1, hl1, ho1⟩ := upsertO_ok _ _ _ _ h
      obtain ⟨v2, hf2, hl2, ho2⟩ := upsertO_ok _ _ _ _ hf1
      obtain ⟨v3, hf3, hl3, ho3⟩ := upsertO_ok _ _ _ _ hf2
      obtain ⟨v4, hf4, hl4, ho4⟩ := upsertO_ok _ _ _ _ hf3
      obtain ⟨td', hf5, hl5, ho5⟩ := upsertO_ok _ _ _ _ hf4
      obtain ⟨t0, vs, q, ht, hv, hq, hvals⟩ := updateTest_ok _ _ _ _ _ hf5
      have hcf : classifyFull inds platforms entry = .ok (some (k0, eo, t0, q)) :=
        classifyFull_some inds platforms entry k0 eo t0 vs q hc ht hv hq
      have hYold :
          chainLookup org k0 =
            aLookup k0.name ((aLookup k0.pl ((aLookup k0.variants ((aLookup k0.app
              ((aLookup k0.platform org).getD [])).getD [])).getD [])).getD []) := by
        unfold chainLookup
        simp only [aLookup_getD]
      have hchain_new : chainLookup org' k0 = some td' := by
        unfold chainLookup
        rw [hl1]
        simp only [Option.some_bind]
        rw [hl2]
        simp only [Option.some_bind]
        rw [hl3]
        simp only [Option.some_bind]
        rw [hl4]
        simp only [Option.some_bind]
        exact hl5
      have hchain_ne : ∀ k : Key, k ≠ k0 → chainLookup org' k = chainLookup org k := by
        intro k hk
        unfold chainLookup
        by_cases h1 : k.platform = k0.platform
        · rw [h1, hl1]
          rw [show (aLookup k0.platform org).bind (aLookup k.app) =
            aLookup k.app ((aLookup k0.platform org).getD []) from (aLookup_getD _ _).symm]
          simp only [Option.some_bind]
          by_cases h2 : k.app = k0.app
          · rw [h2, hl2]
            rw [show (aLookup k0.app ((aLookup k0.platform org).getD [])).bind
                (aLookup k.variants) =
              aLookup k.variants ((aLookup k0.app
                ((aLookup k0.platform org).getD [])).getD []) from (aLookup_getD _ _).symm]
            simp only [Option.some_bind]
            by_cases h3 : k.variants = k0.variants
            · rw [h3, hl3]
              rw [show (aLookup k0.variants ((aLookup k0.app
                  ((aLookup k0.platform org).getD [])).getD [])).bind (aLookup k.pl) =
                aLookup k.pl ((aLookup k0.variants ((aLookup k0.app
                  ((aLookup k0.platform org).getD [])).getD [])).getD [])
                from (aLookup_getD _ _).symm]
              simp only [Option.some_bind]
              by_cases h4 : k.pl = k0.pl
              · rw [h4, hl4]
                rw [show (aLookup k0.pl ((aLookup k0.variants ((aLookup k0.app
                    ((aLookup k0.platform org).getD [])).getD [])).getD [])).bind
                    (aLookup k.name) =
                  aLookup k.name ((aLookup k0.pl ((aLookup k0.variants ((aLookup k0.app
                    ((aLookup k0.platform org).getD [])).getD [])).getD [])).getD [])
                  from (aLookup_getD _ _).symm]
                simp only [Option.some_bind]
                by_cases h5 : k.name = k0.name
                · exfalso
                  apply hk
                  cases k
                  cases k0
                  simp_all
                · exact ho5 k.name h5
              · exact congrArg (fun o => o.bind (aLookup k.name)) (ho4 k.pl h4)
            · exact congrArg
                (fun o => (o.bind (aLookup k.pl)).bind (aLookup k.name)) (ho3 k.variants h3)
          · exact congrArg
              (fun o => ((o.bind (aLookup k.pl)).bind (aLookup k.name)))
              (congrArg (fun o => o.bind (aLookup k.variants)) (ho2 k.app h2))
        · rw [ho1 k.platform h1]
      refine ⟨⟨some (k0, eo, t0, q), hcf⟩, ?_⟩
      intro k t
      have hcontrib : contribOf inds platforms entry k t =
          if k0 = k ∧ t0 = t then [q] else [] := by
        unfold contribOf
        rw [hcf]
      by_cases hkk : k = k0
      · subst hkk
        unfold valuesAt
        rw [hchain_new]
        simp only [Option.map_some', Option.getD_some]
        rw [hvals, aLookup_appendAt, hYold, hcontrib]
        by_cases htt : t = t0
        · subst htt
          simp only [if_pos rfl, Option.getD_some, eq_self_iff_true, and_self]
          rw [map_values_lookup]
          simp
        · rw [if_neg htt]
          rw [map_values_lookup]
          have hne2 : ¬(k = k ∧ t0 = t) := fun hp => htt hp.2.symm
          rw [if_neg hne2, List.append_nil]
      · unfold valuesAt
        rw [hchain_ne k hkk, hcontrib]
        have hne2 : ¬(k0 = k ∧ t0 = t) := fun hp => hkk hp.1.symm
        rw [if_neg hne2, List.append_nil]

/-- Folding the loop over any row list: every row classifies without error
and each leaf holds exactly the concatenated contributions of the rows, in
row order. -/
theorem foldlM_processEntry (inds : Inds) (platforms : List String) :
    ∀ (rows : List (List String)) (org org' : Org),
      rows.foldlM (processEntry inds platforms) org = .ok org' →
      (∀ e ∈ rows, ∃ r, classifyFull inds platforms e = .ok r) ∧
      ∀ k t, valuesAt org' k t =
        valuesAt org k t ++ (rows.map (fun e => contribOf inds platforms e k t)).flatten := by
  intro rows
  induction rows with
  | nil =>
    intro org org' h
    simp only [List.foldlM_nil, pure, Except.pure, Except.ok.injEq] at h
    subst h
    exact ⟨by simp, by simp⟩
  | cons r rs ih =>
    intro org org' h
    rw [List.foldlM_cons] at h
    cases he : processEntry inds platforms org r with
    | error e => rw [he] at h; simp [Except.bind, bind] at h
    | ok org1 =>
      rw [he] at h
      simp only [Except.bind, bind] at h
      obtain ⟨hcls, hstep⟩ := processEntry_ok _ _ _ _ _ he
      obtain ⟨hclsrest, hrest⟩ := ih org1 org' h
      refine ⟨?_, ?_⟩
      · intro e hmem
        rcases List.mem_cons.mp hmem with he2 | he2
        · subst he2; exact hcls
        · exact hclsrest e he2
      · intro k t
        rw [hrest k t, hstep k t]
        simp [List.append_assoc]

/-- C6.  For every input on which `organize_data` succeeds, every data row
surviving the warm/cold and non-live filters appears in exactly one leaf of
the Organized Data Tree: for every classification key `k` and timestamp `t`,
the stored value list is exactly the values contributed by the rows whose
derived classification key and timestamp are `(k, t)` — so each surviving
row's value is appended at its own derived key and nowhere else, with no
omission and no duplication. -/
theorem c6_values_exactly_one_leaf (data : List (List String)) (platforms : List String) (org : Org)
    (h : organize_data data platforms = .ok org) :
    ∃ inds, getInds data = .ok inds ∧
      (∀ e ∈ data.drop 1, ∃ r, classifyFull inds platforms e = .ok r) ∧
      ∀ k t, valuesAt org k t = contribs inds platforms data k t := by
  unfold organize_data at h
  cases hi : getInds data with
  | error e => rw [hi] at h; simp [Except.bind, bind] at h
  | ok inds =>
    rw [hi] at h
    simp only [Except.bind, bind] at h
    cases hf : (data.drop 1).foldlM (processEntry inds platforms) [] with
    | error e => rw [hf] at h; simp [Except.bind] at h
    | ok org0 =>
      rw [hf] at h
      simp only [Except.bind] at h
      by_cases hne : org0.isEmpty
      · rw [if_pos hne] at h
        cases hm : data.mapM (fun entry => idx inds.platform entry) with
        | error e => rw [hm] at h; simp [Except.bind, bind] at h
        | ok ps => rw [hm] at h; simp [Except.bind, bind] at h
      · rw [if_neg hne] at h
        simp only [pure, Except.pure, Except.ok.injEq] at h
        subst h
        obtain ⟨hcls, hval⟩ := foldlM_processEntry inds platforms (data.drop 1) [] org0 hf
        refine ⟨inds, rfl, hcls, ?_⟩
        intro k t
        rw [hval k t]
        unfold contribs
        simp [valuesAt, chainLookup, aLookup]

/-- C6 (witness): the characterization applied to the concrete `dataC2`
input and its organized tree. -/
theorem c6_values_exactly_one_leaf_witness :
    ∃ inds, getInds dataC2 = .ok inds ∧
      (∀ e ∈ dataC2.drop 1, ∃ r, classifyFull inds [] e = .ok r) ∧
      ∀ k t, valuesAt orgC2 k t = contribs inds [] dataC2 k t :=
  c6_values_exactly_one_leaf dataC2 [] orgC2 (by decide)
/-- A canonical timestamp string parses, and re-rendering gives it back. -/
theorem canonicalB_spec {s : String} (h : canonicalB s = true) :
    ∃ d, strptime s = some d ∧ strftime d = s := by
  unfold canonicalB at h
  cases hp : strptime s with
  | none => rw [hp] at h; exact absurd h (by simp)
  | some d =>
    rw [hp] at h
    exact ⟨d, rfl, by simpa using h⟩

/-- `mapM` succeeds when every element's action succeeds. -/
theorem mapM_ok_of_all {α β : Type} (f : α → Except PyErr β) :
    ∀ l : List α, (∀ x ∈ l, ∃ y, f x = .ok y) → ∃ ys, l.mapM f = .ok ys := by
  intro l
  induction l with
  | nil => intro _; exact ⟨[], rfl⟩
  | cons x xs ih =>
    intro h
    obtain ⟨y, hy⟩ := h x (List.mem_cons_self x xs)
    obtain ⟨ys, hys⟩ := ih (fun z hz => h z (List.mem_cons_of_mem x hz))
    refine ⟨y :: ys, ?_⟩
    rw [List.mapM_cons, hy]
    simp only [Except.bind, bind]
    rw [hys]
    simp only [Except.bind, bind, pure, Except.pure]

/-- Invariant of the bucket walk: on canonical input the fold never fails,
the closed buckets followed by the open bucket (re-rendered) spell out the
processed input exactly, and closed buckets are never empty. -/
theorem ta_fold (diff : Int) :
    ∀ (l : List String) (aggr : List (List String)) (curr : List DT),
      (∀ s ∈ l, canonicalB s = true) →
      (∀ b ∈ aggr, b ≠ []) →
      ∃ aggr' curr', l.foldlM (taStep diff) (aggr, curr) = .ok (aggr', curr') ∧
        aggr'.flatten ++ curr'.map strftime = (aggr.flatten ++ curr.map strftime) ++ l ∧
        (∀ b ∈ aggr', b ≠ []) := by
  intro l
  induction l with
  | nil =>
    intro aggr curr hc hb
    exact ⟨aggr, curr, rfl, by simp, hb⟩
  | cons t ts ih =>
    intro aggr curr hc hb
    have hct : canonicalB t = true := hc t (List.mem_cons_self t ts)
    obtain ⟨d, hd, hs⟩ := canonicalB_spec hct
    rw [List.foldlM_cons]
    have hstep : taStep diff (aggr, curr) t =
        match curr with
        | [] => .ok (aggr, [d])
        | c :: _ =>
          if toMin c - toMin d < diff then .ok (aggr, curr ++ [d])
          else .ok (aggr ++ [curr.map strftime], [d]) := by
      unfold taStep
      rw [hd]
    cases curr with
    | nil =>
      rw [hstep]
      simp only [Except.bind, bind]
      obtain ⟨aggr', curr', heq, hcat, hb'⟩ :=
        ih aggr [d] (fun s hs2 => hc s (List.mem_cons_of_mem t hs2)) hb
      refine ⟨aggr', curr', heq, ?_, hb'⟩
      rw [hcat]
      simp [hs]
    | cons c cs =>
      by_cases hgap : toMin c - toMin d < diff
      · rw [hstep]
        simp only [if_pos hgap, Except.bind, bind]
        obtain ⟨aggr', curr', heq, hcat, hb'⟩ :=
          ih aggr ((c :: cs) ++ [d]) (fun s hs2 => hc s (List.mem_cons_of_mem t hs2)) hb
        refine ⟨aggr', curr', heq, ?_, hb'⟩
        rw [hcat]
        simp [hs]
      · rw [hstep]
        simp only [if_neg hgap, Except.bind, bind]
        obtain ⟨aggr', curr', heq, hcat, hb'⟩ :=
          ih (aggr ++ [(c :: cs).map strftime]) [d]
            (fun s hs2 => hc s (List.mem_cons_of_mem t hs2))
            (by
              intro b hbm
              rcases List.mem_append.mp hbm with hbm | hbm
              · exact hb b hbm
              · simp only [List.mem_singleton] at hbm
                subst hbm
                simp)
        refine ⟨aggr', curr', heq, ?_, hb'⟩
        rw [hcat]
        simp [hs]

/-- On canonical timestamps `temporal_aggregation` succeeds, and every
returned bucket is nonempty and draws its elements from the input. -/
theorem ta_ok (times : List String) (timespan : Int)
    (hc : ∀ s ∈ times, canonicalB s = true) :
    ∃ bs, temporal_aggregation times timespan = .ok bs ∧
      ∀ b ∈ bs, b ≠ [] ∧ ∀ x ∈ b, x ∈ times := by
  have hmem : ∀ s ∈ (sortedStrings times).reverse, s ∈ times := by
    intro s hs
    exact (List.perm_insertionSort sLE times).mem_iff.mp (List.mem_reverse.mp hs)
  obtain ⟨aggr', curr', heq, hcat, hball⟩ :=
    ta_fold (60 * timespan) ((sortedStrings times).reverse) [] []
      (fun s hs => hc s (hmem s hs)) (by simp)
  refine ⟨aggr'.reverse, ?_, ?_⟩
  · unfold temporal_aggregation
    rw [heq]
    rfl
  · intro b hbm
    have hb1 : b ∈ aggr' := List.mem_reverse.mp hbm
    refine ⟨hball b hb1, ?_⟩
    intro x hx
    have hxf : x ∈ aggr'.flatten := List.mem_flatten.mpr ⟨b, hb1, hx⟩
    have hxa : x ∈ aggr'.flatten ++ curr'.map strftime := List.mem_append_left _ hxf
    rw [hcat] at hxa
    simp only [List.flatten_nil, List.map_nil, List.append_nil, List.nil_append] at hxa
    exact hmem x hxa

/-- Membership in the push-time accumulation fold. -/
theorem mem_allPushTimes_aux (x : String) :
    ∀ (tests : List (String × TestData)) (acc : List String),
      x ∈ tests.foldl (fun a p => a ++ p.2.values.map Prod.fst) acc →
      x ∈ acc ∨ ∃ p ∈ tests, x ∈ p.2.values.map Prod.fst := by
  intro tests
  induction tests with
  | nil => intro acc h; exact Or.inl h
  | cons p ps ih =>
    intro acc h
    rcases ih (acc ++ p.2.values.map Prod.fst) h with h2 | h2
    · rcases List.mem_append.mp h2 with h3 | h3
      · exact Or.inl h3
      · exact Or.inr ⟨p, List.mem_cons_self p ps, h3⟩
    · obtain ⟨p2, hp2, hx⟩ := h2
      exact Or.inr ⟨p2, List.mem_cons_of_mem p hp2, hx⟩

/-- Every collected push time belongs to some test's value mapping. -/
theorem mem_allPushTimes {x : String} {tests : List (String × TestData)}
    (h : x ∈ allPushTimes tests) : ∃ p ∈ tests, x ∈ p.2.values.map Prod.fst := by
  rcases mem_allPushTimes_aux x tests [] h with h2 | h2
  · exact absurd h2 (by simp)
  · exact h2

/-- A key present in the association list's key list looks up to a value. -/
theorem aLookup_isSome_of_mem {β : Type} (t : String) :
    ∀ l : List (String × β), t ∈ l.map Prod.fst → (aLookup t l).isSome = true := by
  intro l
  induction l with
  | nil => intro h; exact absurd h (by simp)
  | cons p rest ih =>
    intro h
    obtain ⟨k, v⟩ := p
    unfold aLookup
    by_cases hk : k = t
    · simp [hk]
    · rw [if_neg hk]
      rw [List.map_cons] at h
      rcases List.mem_cons.mp h with h2 | h2
      · exact absurd h2.symm hk
      · exact ih h2

/-- Extending an accumulator never leaves it empty. -/
theorem extendAt_ne_nil (k : String) (xs : List PyF) :
    ∀ l, extendAt k xs l ≠ [] := by
  intro l
  cases l with
  | nil => simp [extendAt]
  | cons p rest =>
    obtain ⟨k1, v1⟩ := p
    unfold extendAt
    by_cases h : k1 = k <;> simp [h]

/-- The per-timestamp accumulation over the tests is nonempty as soon as the
accumulator already is, or some test holds values at the timestamp. -/
theorem inner_fold_ne_nil (t : String) :
    ∀ (tests : List (String × TestData)) (vals : List (String × List PyF)),
      (vals ≠ [] ∨ ∃ p ∈ tests, (aLookup t p.2.values).isSome = true) →
      tests.foldl (fun vals2 p =>
        match aLookup t p.2.values with
        | none => vals2
        | some xs => extendAt p.1 xs vals2) vals ≠ [] := by
  intro tests
  induction tests with
  | nil =>
    intro vals h
    rcases h with h | h
    · exact h
    · obtain ⟨p, hp, -⟩ := h
      exact absurd hp (by simp)
  | cons p ps ih =>
    intro vals h
    rw [List.foldl_cons]
    cases hl : aLookup t p.2.values with
    | some xs =>
      exact ih (extendAt p.1 xs vals) (Or.inl (extendAt_ne_nil p.1 xs vals))
    | none =>
      rcases h with h | h
      · exact ih vals (Or.inl h)
      · obtain ⟨p2, hp2, hsome⟩ := h
        rcases List.mem_cons.mp hp2 with h2 | h2
        · subst h2
          rw [hl] at hsome
          exact absurd hsome (by simp)
        · exact ih vals (Or.inr ⟨p2, h2, hsome⟩)

/-- The bucket accumulation is nonempty as soon as some timestamp of the
bucket is held by some test. -/
theorem accumulateVals_ne_nil (tests : List (String × TestData)) :
    ∀ (times : List String) (vals : List (String × List PyF)),
      (vals ≠ [] ∨ ∃ t ∈ times, ∃ p ∈ tests, (aLookup t p.2.values).isSome = true) →
      times.foldl (fun vals t =>
        tests.foldl (fun vals2 p =>
          match aLookup t p.2.values with
          | none => vals2
          | some xs => extendAt p.1 xs vals2) vals) vals ≠ [] := by
  intro times
  induction times with
  | nil =>
    intro vals h
    rcases h with h | h
    · exact h
    · obtain ⟨t, ht, -⟩ := h
      exact absurd ht (by simp)
  | cons t ts ih =>
    intro vals h
    rw [List.foldl_cons]
    rcases h with h | h
    · exact ih _ (Or.inl (inner_fold_ne_nil t tests vals (Or.inl h)))
    · obtain ⟨t2, ht2, hw⟩ := h
      rcases List.mem_cons.mp ht2 with h2 | h2
      · subst h2
        exact ih _ (Or.inl (inner_fold_ne_nil t2 tests vals (Or.inr hw)))
      · exact ih _ (Or.inr ⟨t2, h2, hw⟩)

/-- C9.  Under the precondition that every push-timestamp string in the
group is canonical zero-padded `YYYY-mm-dd HH:MM`, every bucket the
summarizer processes contains a timestamp at which some test holds a value
list, so the per-bucket accumulator is never empty: the geometric mean is
never taken over an empty collection and the division-by-zero branch of
`geo_mean` is unreachable — `summarize_group` succeeds. -/
theorem c9_buckets_have_contributors (tests : List (String × TestData)) (timespan : Int)
    (hcanon : ∀ p ∈ tests, ∀ pr ∈ p.2.values, canonicalB pr.1 = true) :
    (∀ bs, temporal_aggregation (allPushTimes tests).dedup timespan = .ok bs →
      ∀ b ∈ bs, ∃ t ∈ b, ∃ p ∈ tests, (aLookup t p.2.values).isSome = true) ∧
    ∃ out, summarize_group tests timespan = .ok out := by
  have hcall : ∀ s ∈ (allPushTimes tests).dedup, canonicalB s = true := by
    intro s hs
    obtain ⟨p, hp, hx⟩ := mem_allPushTimes (List.mem_dedup.mp hs)
    obtain ⟨pr, hpr, hfst⟩ := List.mem_map.mp hx
    exact hfst ▸ hcanon p hp pr hpr
  obtain ⟨bs, hta, hbs⟩ := ta_ok _ timespan hcall
  have hcontrib : ∀ b ∈ bs, ∃ t ∈ b, ∃ p ∈ tests, (aLookup t p.2.values).isSome = true := by
    intro b hb
    obtain ⟨hne, hsub⟩ := hbs b hb
    cases b with
    | nil => exact absurd rfl hne
    | cons t rest =>
      have htm : t ∈ (allPushTimes tests).dedup := hsub t (List.mem_cons_self t rest)
      obtain ⟨p, hp, hx⟩ := mem_allPushTimes (List.mem_dedup.mp htm)
      exact ⟨t, List.mem_cons_self t rest, p, hp, aLookup_isSome_of_mem t p.2.values hx⟩
  refine ⟨?_, ?_⟩
  · intro bs' hta'
    rw [hta] at hta'
    have hbb : bs = bs' := Except.ok.inj hta'
    subst hbb
    exact hcontrib
  · unfold summarize_group
    rw [hta]
    simp only [Except.bind, bind]
    apply mapM_ok_of_all
    intro b hb
    have hbbs : b ∈ bs := (List.perm_insertionSort bLE bs).mem_iff.mp hb
    have hne : b ≠ [] := (hbs b hbbs).1
    obtain ⟨t2, ht2, p2, hp2, hsome⟩ := hcontrib b hbbs
    have hvne : accumulateVals tests b ≠ [] := by
      unfold accumulateVals
      exact accumulateVals_ne_nil tests b [] (Or.inr ⟨t2, ht2, p2, hp2, hsome⟩)
    have hlen : ¬ ((accumulateVals tests b).map (fun p => npMean p.2)).length = 0 := by
      simp only [List.length_map]
      intro h0
      exact hvne (List.length_eq_zero.mp h0)
    refine ⟨(b.getLast hne,
      ⟨((accumulateVals tests b).map (fun p => npMean p.2)).foldl PyF.mul ⟨1, 1⟩,
        ((accumulateVals tests b).map (fun p => npMean p.2)).length⟩), ?_⟩
    rw [List.getLast?_eq_getLast_of_ne_nil hne]
    dsimp only []
    unfold geo_mean
    rw [if_neg hlen]
    simp only [Except.bind, bind, pure, Except.pure]

/-- C9 (witness): the contributor property and success of the summarizer on
the concrete single-test group `testsC3`. -/
theorem c9_buckets_have_contributors_witness :
    (∀ bs, temporal_aggregation (allPushTimes testsC3).dedup 24 = .ok bs →
      ∀ b ∈ bs, ∃ t ∈ b, ∃ p ∈ testsC3, (aLookup t p.2.values).isSome = true) ∧
    ∃ out, summarize_group testsC3 24 = .ok out :=
  c9_buckets_have_contributors testsC3 24 (by decide)

/-- A parsed digit is at most 9. -/
theorem dval_le {c : Char} {n : Nat} (h : dval c = some n) : n ≤ 9 := by
  unfold dval at h
  by_cases hd : c.isDigit
  · rw [if_pos hd] at h
    simp [Char.isDigit] at hd
    have h3 : c.val.toNat ≤ 57 := hd.2
    have h4 : c.toNat = c.val.toNat := rfl
    simp only [Option.some.injEq] at h
    omega
  · rw [if_neg hd] at h
    exact absurd h (by simp)

/-- A parsed two-digit block is at most 99. -/
theorem dd_le {a b : Char} {n : Nat} (h : dd a b = some n) : n ≤ 99 := by
  unfold dd at h
  cases ha : dval a with
  | none => rw [ha] at h; exact absurd h (by simp [Option.bind, bind])
  | some x =>
    rw [ha] at h
    cases hb : dval b with
    | none => rw [hb] at h; exact absurd h (by simp [Option.bind, bind])
    | some y =>
      rw [hb] at h
      simp only [Option.bind, Option.some.injEq, bind, pure] at h
      have hx := dval_le ha
      have hy := dval_le hb
      omega

/-- Digit characters compare like their digits. -/
theorem digitChar_lt {a b : Nat} (ha : a ≤ 9) (hb : b ≤ 9) (h : a < b) :
    charLtB (Nat.digitChar a) (Nat.digitChar b) = true := by
  interval_cases a <;> interval_cases b <;> decide

/-- Zero-padded two-digit blocks compare like their numbers (strict case),
regardless of what follows. -/
theorem pad2_lt {m1 m2 : Nat} (h1 : m1 ≤ 99) (h2 : m2 ≤ 99) (h : m1 < m2)
    (r1 r2 : List Char) :
    lexLt charLtB (pad2L m1 ++ r1) (pad2L m2 ++ r2) = true := by
  unfold pad2L
  simp only [List.cons_append, List.nil_append]
  by_cases hd : m1 / 10 < m2 / 10
  · have hlt := digitChar_lt (by omega) (by omega) hd
    simp [lexLt, hlt]
  · have hde : m1 / 10 = m2 / 10 := by omega
    rw [hde]
    have hm : m1 % 10 < m2 % 10 := by omega
    have hlt := digitChar_lt (by omega) (by omega) hm
    simp [lexLt, charLtB_irrefl, hlt]

/-- Equal two-digit blocks reduce the comparison to the tails. -/
theorem pad2_eq_append (m : Nat) (r1 r2 : List Char) :
    lexLt charLtB (pad2L m ++ r1) (pad2L m ++ r2) = lexLt charLtB r1 r2 := by
  simp [pad2L, lexLt, charLtB_irrefl]

/-- Equal separator characters reduce the comparison to the tails. -/
theorem cons_sep_lexLt (c : Char) (r1 r2 : List Char) :
    lexLt charLtB (c :: r1) (c :: r2) = lexLt charLtB r1 r2 := by
  simp [lexLt, charLtB_irrefl]

/-- Zero-padded four-digit blocks compare like their numbers (strict case). -/
theorem pad4_lt {y1 y2 : Nat} (h1 : y1 ≤ 9999) (h2 : y2 ≤ 9999) (h : y1 < y2)
    (r1 r2 : List Char) :
    lexLt charLtB (pad4L y1 ++ r1) (pad4L y2 ++ r2) = true := by
  unfold pad4L
  rw [List.append_assoc, List.append_assoc]
  by_cases hd : y1 / 100 < y2 / 100
  · exact pad2_lt (by omega) (by omega) hd _ _
  · have hde : y1 / 100 = y2 / 100 := by omega
    rw [hde, pad2_eq_append]
    exact pad2_lt (by omega) (by omega) (by omega) _ _

/-- Equal four-digit blocks reduce the comparison to the tails. -/
theorem pad4_eq_append (y : Nat) (r1 r2 : List Char) :
    lexLt charLtB (pad4L y ++ r1) (pad4L y ++ r2) = lexLt charLtB r1 r2 := by
  unfold pad4L
  rw [List.append_assoc, List.append_assoc, pad2_eq_append, pad2_eq_append]

/-- Field bounds guaranteed by a successful parse. -/
theorem strptime_bounds {s : String} {d : DT} (h : strptime s = some d) :
    d.year ≤ 9999 ∧ d.month ≤ 99 ∧ d.day ≤ 99 ∧ d.hour ≤ 99 ∧ d.minute ≤ 59 := by
  unfold strptime at h
  split at h
  case _ x a1 a2 a3 a4 b1 b2 c1 c2 e1 e2 f1 f2 heq =>
    cases h1 : dd a1 a2 with
    | none => rw [h1] at h; exact absurd h (by simp [Option.bind, bind])
    | some yhi =>
      rw [h1] at h
      simp only [Option.bind, bind] at h
      cases h2 : dd a3 a4 with
      | none => rw [h2] at h; exact absurd h (by simp [Option.bind, bind])
      | some ylo =>
        rw [h2] at h
        simp only [Option.bind, bind] at h
        cases h3 : dd b1 b2 with
        | none => rw [h3] at h; exact absurd h (by simp [Option.bind, bind])
        | some m =>
          rw [h3] at h
          simp only [Option.bind, bind] at h
          cases h4 : dd c1 c2 with
          | none => rw [h4] at h; exact absurd h (by simp [Option.bind, bind])
          | some dy =>
            rw [h4] at h
            simp only [Option.bind, bind] at h
            cases h5 : dd e1 e2 with
            | none => rw [h5] at h; exact absurd h (by simp [Option.bind, bind])
            | some hr =>
              rw [h5] at h
              simp only [Option.bind, bind] at h
              cases h6 : dd f1 f2 with
              | none => rw [h6] at h; exact absurd h (by simp [Option.bind, bind])
              | some mi =>
                rw [h6] at h
                simp only [Option.bind, bind] at h
                split at h
                · simp only [Option.some.injEq] at h
                  subst h
                  have hb1 := dd_le h1
                  have hb2 := dd_le h2
                  have hb3 := dd_le h3
                  have hb4 := dd_le h4
                  have hb5 := dd_le h5
                  have hb6 := dd_le h6
                  rename_i hvalid
                  refine ⟨?_, ?_, ?_, ?_, ?_⟩ <;> dsimp only [] <;> omega
                · exact absurd h (by simp)
  case _ =>
    exact absurd h (by simp)

/-- Rendering is strictly monotone: a chronologically earlier parsed
timestamp renders to a lexicographically smaller string (this is the
zero-padded-format property that makes Python's string sort chronological).
-/
theorem strftime_lt {d1 d2 : DT}
    (hy1 : d1.year ≤ 9999) (hm1 : d1.month ≤ 99) (hd1 : d1.day ≤ 99)
    (hh1 : d1.hour ≤ 99) (hmi1 : d1.minute ≤ 99)
    (hy2 : d2.year ≤ 9999) (hm2 : d2.month ≤ 99) (hd2 : d2.day ≤ 99)
    (hh2 : d2.hour ≤ 99) (hmi2 : d2.minute ≤ 99)
    (h : DT.key d1 < DT.key d2) :
    strLtB (strftime d1) (strftime d2) = true := by
  show lexLt charLtB
      (pad4L d1.year ++ ('-' :: (pad2L d1.month ++ ('-' :: (pad2L d1.day
        ++ (' ' :: (pad2L d1.hour ++ (':' :: pad2L d1.minute))))))))
      (pad4L d2.year ++ ('-' :: (pad2L d2.month ++ ('-' :: (pad2L d2.day
        ++ (' ' :: (pad2L d2.hour ++ (':' :: pad2L d2.minute)))))))) = true
  unfold DT.key at h
  rcases Nat.lt_or_ge d1.year d2.year with hy | hy
  · exact pad4_lt hy1 hy2 hy _ _
  · have hyy : d1.year = d2.year := by omega
    rw [hyy, pad4_eq_append, cons_sep_lexLt]
    rcases Nat.lt_or_ge d1.month d2.month with hm | hm
    · exact pad2_lt hm1 hm2 hm _ _
    · have hmm : d1.month = d2.month := by omega
      rw [hmm, pad2_eq_append, cons_sep_lexLt]
      rcases Nat.lt_or_ge d1.day d2.day with hd | hd
      · exact pad2_lt hd1 hd2 hd _ _
      · have hdd : d1.day = d2.day := by omega
        rw [hdd, pad2_eq_append, cons_sep_lexLt]
        rcases Nat.lt_or_ge d1.hour d2.hour with hh | hh
        · exact pad2_lt hh1 hh2 hh _ _
        · have hhh : d1.hour = d2.hour := by omega
          rw [hhh, pad2_eq_append, cons_sep_lexLt]
          have hmi : d1.minute < d2.minute := by omega
          rw [← List.append_nil (pad2L d1.minute), ← List.append_nil (pad2L d2.minute)]
          exact pad2_lt hmi1 hmi2 hmi _ _

/-- For canonical timestamp strings, not-smaller in string order means
chronologically at least as new. -/
theorem chronoGE_of_not_lt {x y : String} (hx : canonicalB x = true)
    (hy : canonicalB y = true) (h : strLtB x y = false) : chronoGE x y := by
  obtain ⟨dx, hpx, hsx⟩ := canonicalB_spec hx
  obtain ⟨dy, hpy, hsy⟩ := canonicalB_spec hy
  unfold chronoGE chronoGEb
  rw [hpx, hpy]
  simp only [decide_eq_true_eq]
  by_contra hlt
  push_neg at hlt
  obtain ⟨by1, bm1, bd1, bh1, bmi1⟩ := strptime_bounds hpx
  obtain ⟨by2, bm2, bd2, bh2, bmi2⟩ := strptime_bounds hpy
  have := strftime_lt by1 bm1 bd1 bh1 (by omega) by2 bm2 bd2 bh2 (by omega) hlt
  rw [hsx, hsy] at this
  rw [h] at this
  exact absurd this (by simp)

/-- A canonical timestamp is as new as itself. -/
theorem chronoGE_refl {x : String} (hx : canonicalB x = true) : chronoGE x x := by
  obtain ⟨dx, hpx, -⟩ := canonicalB_spec hx
  unfold chronoGE chronoGEb
  rw [hpx]
  simp

/-- In a pairwise-related list, every element relates to the last one (or is
it). -/
theorem pairwise_getLast {α : Type} {R : α → α → Prop} :
    ∀ {l : List α}, l.Pairwise R → ∀ t, l.getLast? = some t → ∀ s ∈ l, s = t ∨ R s t := by
  intro l
  induction l with
  | nil => intro _ t ht s hs; exact absurd hs (by simp)
  | cons a rest ih =>
    intro hp t ht s hs
    rw [List.pairwise_cons] at hp
    obtain ⟨ha, hrest⟩ := hp
    cases rest with
    | nil =>
      simp only [List.getLast?_singleton, Option.some.injEq] at ht
      subst ht
      rcases List.mem_singleton.mp hs with rfl
      exact Or.inl rfl
    | cons b rest2 =>
      have ht2 : (b :: rest2).getLast? = some t := by
        rw [← ht]
        exact List.getLast?_cons_cons.symm
      rcases List.mem_cons.mp hs with rfl | hs2
      · exact Or.inr (ha t (List.mem_of_mem_getLast? ht2))
      · exact ih hrest t ht2 s hs2

/-- A successful `mapM` relates inputs to outputs pointwise. -/
theorem mapM_forall₂ {α β : Type} (f : α → Except PyErr β) :
    ∀ (l : List α) (ys : List β), l.mapM f = .ok ys →
      List.Forall₂ (fun x y => f x = .ok y) l ys := by
  intro l
  induction l with
  | nil =>
    intro ys h
    simp only [List.mapM_nil, pure, Except.pure, Except.ok.injEq] at h
    subst h
    exact List.Forall₂.nil
  | cons x xs ih =>
    intro ys h
    rw [List.mapM_cons] at h
    cases hx : f x with
    | error e => rw [hx] at h; simp [Except.bind, bind] at h
    | ok y =>
      rw [hx] at h
      simp only [Except.bind, bind] at h
      cases hr : xs.mapM f with
      | error e => rw [hr] at h; simp [Except.bind, bind] at h
      | ok ys2 =>
        rw [hr] at h
        simp only [Except.bind, bind, pure, Except.pure, Except.ok.injEq] at h
        subst h
        exact List.Forall₂.cons hx (ih ys2 hr)

/-- Pointwise strengthening of `Forall₂` using membership of the left
element. -/
theorem forall₂_imp_mem {α β : Type} {R S : α → β → Prop} :
    ∀ {l : List α} {ys : List β}, List.Forall₂ R l ys →
      (∀ x ∈ l, ∀ y, R x y → S x y) → List.Forall₂ S l ys := by
  intro l ys hf
  induction hf with
  | nil => intro _; exact List.Forall₂.nil
  | cons hxy hrest ih =>
    intro himp
    refine List.Forall₂.cons (himp _ (List.mem_cons_self _ _) _ hxy) ?_
    exact ih (fun x hx y hr => himp x (List.mem_cons_of_mem _ hx) y hr)

/-- On canonical timestamps every returned bucket is nonempty, draws its
elements from the input, and lists them in non-ascending string order
(newest first): each bucket is a sublist of the descending walk order. -/
theorem ta_desc (times : List String) (timespan : Int)
    (hc : ∀ s ∈ times, canonicalB s = true) :
    ∃ bs, temporal_aggregation times timespan = .ok bs ∧
      ∀ b ∈ bs, b ≠ [] ∧ (∀ x ∈ b, x ∈ times) ∧
        b.Pairwise (fun a b2 => strLtB a b2 = false) := by
  haveI instT : IsTrans String sLE := ⟨fun _ _ _ => sLE_trans⟩
  haveI instTot : IsTotal String sLE := ⟨sLE_total⟩
  have hmem : ∀ s ∈ (sortedStrings times).reverse, s ∈ times := by
    intro s hs
    exact (List.perm_insertionSort sLE times).mem_iff.mp (List.mem_reverse.mp hs)
  have hsorted : ((sortedStrings times).reverse).Pairwise (fun a b2 => strLtB a b2 = false) := by
    rw [List.pairwise_reverse]
    exact List.sorted_insertionSort sLE times
  obtain ⟨aggr', curr', heq, hcat, hball⟩ :=
    ta_fold (60 * timespan) ((sortedStrings times).reverse) [] []
      (fun s hs => hc s (hmem s hs)) (by simp)
  simp only [List.flatten_nil, List.map_nil, List.append_nil, List.nil_append] at hcat
  refine ⟨aggr'.reverse, ?_, ?_⟩
  · unfold temporal_aggregation
    rw [heq]
    rfl
  · intro b hbm
    have hb1 : b ∈ aggr' := List.mem_reverse.mp hbm
    have hsub : b.Sublist ((sortedStrings times).reverse) := by
      have h1 : b.Sublist aggr'.flatten := List.sublist_flatten_of_mem hb1
      have h2 : aggr'.flatten.Sublist (aggr'.flatten ++ curr'.map strftime) :=
        List.sublist_append_left _ _
      have h3 := h1.trans h2
      rwa [hcat] at h3
    refine ⟨hball b hb1, ?_, List.Pairwise.sublist hsub hsorted⟩
    intro x hx
    exact hmem x (hsub.subset hx)

/-- C3 (amended).  Under canonical timestamps: every bucket produced by
`temporal_aggregation` is internally ordered newest-to-oldest (pairwise
chronologically non-ascending), and for every group the summarizer emits,
for each bucket in order, a pair whose timestamp is the bucket's LAST
element — which is the chronologically OLDEST timestamp in that bucket (not
the newest, as the original claim said). -/
theorem c3_amended_bucket_order (tests : List (String × TestData)) (timespan : Int)
    (hcanon : ∀ p ∈ tests, ∀ pr ∈ p.2.values, canonicalB pr.1 = true) :
    ∃ bs out,
      temporal_aggregation (allPushTimes tests).dedup timespan = .ok bs ∧
      summarize_group tests timespan = .ok out ∧
      (∀ b ∈ bs, List.Pairwise chronoGE b) ∧
      List.Forall₂ (fun b pr => b.getLast? = some pr.1 ∧ oldestIn pr.1 b)
        (List.insertionSort bLE bs) out := by
  have hcall : ∀ s ∈ (allPushTimes tests).dedup, canonicalB s = true := by
    intro s hs
    obtain ⟨p, hp, hx⟩ := mem_allPushTimes (List.mem_dedup.mp hs)
    obtain ⟨pr, hpr, hfst⟩ := List.mem_map.mp hx
    exact hfst ▸ hcanon p hp pr hpr
  obtain ⟨bs, hta, hprops⟩ := ta_desc _ timespan hcall
  have hbc : ∀ b ∈ bs, ∀ x ∈ b, canonicalB x = true := by
    intro b hb x hx
    exact hcall x ((hprops b hb).2.1 x hx)
  have hpair : ∀ b ∈ bs, List.Pairwise chronoGE b := by
    intro b hb
    refine List.Pairwise.imp_of_mem ?_ (hprops b hb).2.2
    intro a c ha hc hr
    exact chronoGE_of_not_lt (hbc b hb a ha) (hbc b hb c hc) hr
  have hcontrib : ∀ b ∈ bs, ∃ t ∈ b, ∃ p ∈ tests, (aLookup t p.2.values).isSome = true := by
    intro b hb
    obtain ⟨hne, hsub, -⟩ := hprops b hb
    cases b with
    | nil => exact absurd rfl hne
    | cons t rest =>
      have htm : t ∈ (allPushTimes tests).dedup := hsub t (List.mem_cons_self t rest)
      obtain ⟨p, hp, hx⟩ := mem_allPushTimes (List.mem_dedup.mp htm)
      exact ⟨t, List.mem_cons_self t rest, p, hp, aLookup_isSome_of_mem t p.2.values hx⟩
  have hsg : ∃ out, summarize_group tests timespan = .ok out := by
    unfold summarize_group
    rw [hta]
    simp only [Except.bind, bind]
    apply mapM_ok_of_all
    intro b hb
    have hbbs : b ∈ bs := (List.perm_insertionSort bLE bs).mem_iff.mp hb
    have hne : b ≠ [] := (hprops b hbbs).1
    obtain ⟨t2, ht2, p2, hp2, hsome⟩ := hcontrib b hbbs
    have hvne : accumulateVals tests b ≠ [] := by
      unfold accumulateVals
      exact accumulateVals_ne_nil tests b [] (Or.inr ⟨t2, ht2, p2, hp2, hsome⟩)
    have hlen : ¬ ((accumulateVals tests b).map (fun p => npMean p.2)).length = 0 := by
      simp only [List.length_map]
      intro h0
      exact hvne (List.length_eq_zero.mp h0)
    refine ⟨(b.getLast hne,
      ⟨((accumulateVals tests b).map (fun p => npMean p.2)).foldl PyF.mul ⟨1, 1⟩,
        ((accumulateVals tests b).map (fun p => npMean p.2)).length⟩), ?_⟩
    rw [List.getLast?_eq_getLast_of_ne_nil hne]
    dsimp only []
    unfold geo_mean
    rw [if_neg hlen]
    simp only [Except.bind, bind, pure, Except.pure]
  obtain ⟨out, hout⟩ := hsg
  have houteq := hout
  unfold summarize_group at houteq
  rw [hta] at houteq
  simp only [Except.bind, bind] at houteq
  refine ⟨bs, out, hta, hout, hpair, ?_⟩
  have hf2 := mapM_forall₂ _ _ _ houteq
  refine forall₂_imp_mem hf2 ?_
  intro b hb y hr
  have hbbs : b ∈ bs := (List.perm_insertionSort bLE bs).mem_iff.mp hb
  have hne : b ≠ [] := (hprops b hbbs).1
  cases hl : b.getLast? with
  | none => rw [hl] at hr; exact absurd hr (by simp)
  | some tl =>
    rw [hl] at hr
    cases hg : geo_mean ((accumulateVals tests b).map (fun p => npMean p.2)) with
    | error e => rw [hg] at hr; exact absurd hr (by simp [Except.bind, bind])
    | ok g =>
      rw [hg] at hr
      simp only [Except.bind, bind, pure, Except.pure, Except.ok.injEq] at hr
      subst hr
      have htlmem : tl ∈ b := List.mem_of_mem_getLast? hl
      refine ⟨rfl, ?_⟩
      unfold oldestIn
      rw [List.all_eq_true]
      intro s hs
      rcases pairwise_getLast (hprops b hbbs).2.2 tl hl s hs with rfl | hlt
      · exact chronoGE_refl (hbc b hbbs s hs)
      · exact chronoGE_of_not_lt (hbc b hbbs s hs) (hbc b hbbs tl htlmem) hlt

/-- C3 (witness for the amended theorem): instantiated at the concrete
group `testsC3`. -/
theorem c3_amended_bucket_order_witness :
    ∃ bs out,
      temporal_aggregation (allPushTimes testsC3).dedup 24 = .ok bs ∧
      summarize_group testsC3 24 = .ok out ∧
      (∀ b ∈ bs, List.Pairwise chronoGE b) ∧
      List.Forall₂ (fun b pr => b.getLast? = some pr.1 ∧ oldestIn pr.1 b)
        (List.insertionSort bLE bs) out :=
  c3_amended_bucket_order testsC3 24 (by decide)

end Pageload
